import Mathlib

/-!
# Neural_Network: a shallow embedding of the feed-forward trainer

The C++ sources (`utils.h`, `activation.h`, `losses.h`, `layer.h`, `NN.h`) are
embedded as pure Lean functions.

* `double` is an arbitrary linearly ordered field `α`: rounding, infinities and
  NaN are not represented. `exp` and `log` from `<cmath>` are parameters of the
  functions that call them, so every definition stays executable (for instance
  over `ℚ`). A statement over `ℝ` with `Real.exp` and `Real.log` is a statement
  about the source expressions in exact real arithmetic.
* Where rounding decides a property (the range of `sigmoid`), the expression is
  embedded a second time in binary64 arithmetic: a finite double is the rational
  number it denotes, and every operation is followed by `roundDouble`.
* `int` is `Int`, and a vector length is a `Nat`; lengths stay far below
  `2^31`, so no wrap-around is represented.
* `std::vector<double>` is `List α`, `std::vector<std::vector<double>>` is
  `List (List α)`.
* `v[i]` with `i` outside the vector is undefined behaviour in C++; here it is
  the fault `none`, and every function that indexes returns an `Option`.
* A member function that mutates its object returns the new object next to its
  return value.
* A counting loop `for (int i = 0; i < n; i++)` is a monadic left fold over
  `List.range n`.
-/

namespace NeuralNetwork

variable {α : Type}

/-! ## utils.h -/

/-- Function `dotProduct` of `utils.h`: `res` starts at `0` and, for every
index `i` of `v1`, `res += v1[i] * v2[i]`. Reading `v2[i]` past the end of
`v2` is the fault `none`. -/
def dotProduct [Zero α] [Add α] [Mul α] (v1 v2 : List α) : Option α :=
  (List.range v1.length).foldlM
    (fun res i => do
      let a ← v1[i]?
      let b ← v2[i]?
      pure (res + a * b))
    (0 : α)

/-- Function `scalarVectorMultiplication` of `utils.h`:
`std::transform` overwrites every `v[i]` with `v[i] * scalar`, and the
overwritten vector is returned by value. The result is both the new content of
the argument `v` and the returned vector. -/
def scalarVectorMultiplication [Mul α] (v : List α) (scalar : α) : List α :=
  v.map (fun x => x * scalar)

/-- Function `subtract` of `utils.h`: `std::transform` walks `v1` from
`begin` to `end`, reads `v2` at the same positions and appends
`v1[i] - v2[i]` to `output`. Reading `v2` past its end is the fault `none`. -/
def subtract [Sub α] (v1 v2 : List α) : Option (List α) :=
  (List.range v1.length).foldlM
    (fun output i => do
      let a ← v1[i]?
      let b ← v2[i]?
      pure (output ++ [a - b]))
    []

/-- Member `resize` of `std::vector<double>`: keeps the first `n` entries and
pads with `0.0` up to length `n`. -/
def resize [Zero α] (v : List α) (n : Nat) : List α :=
  v.take n ++ List.replicate (n - v.length) 0

/-- Function `transpose` of `utils.h`. `trans_vec` is created with
`m[0].size()` rows of `m.size()` zeros (`m[0]` of an empty `m` is a fault);
then for every row index `i` and every `j < m[i].size()` the row
`trans_vec[j]` is resized to `m.size()` if its size differs, and
`trans_vec[j][i] = m[i][j]` is stored. `trans_vec[j]` with
`j ≥ m[0].size()` is a fault. -/
def transpose [Zero α] (m : List (List α)) : Option (List (List α)) := do
  let m0 ← m[0]?
  let trans_vec : List (List α) :=
    List.replicate m0.length (List.replicate m.length 0)
  (List.range m.length).foldlM
    (fun trans_vec i => do
      let mi ← m[i]?
      (List.range mi.length).foldlM
        (fun trans_vec j => do
          let tj ← trans_vec[j]?
          let tj := if tj.length ≠ m.length then resize tj m.length else tj
          let x ← mi[j]?
          if i < tj.length then pure (trans_vec.set j (tj.set i x)) else none)
        trans_vec)
    trans_vec

/-- Function `uniformWeightInitializer` of `utils.h`. The random generator
is the parameter `dis`: `dis k` is the value of the `k`-th call `dis(gen)`.
The matrix has `rows` rows of `cols` entries, filled row by row, so entry
`[i][j]` is draw number `i * cols + j`. A negative `int` size makes the
`std::vector` constructor throw, which is the fault `none`. -/
def uniformWeightInitializer (dis : Nat → α) (rows cols : Int) :
    Option (List (List α)) :=
  if rows < 0 ∨ cols < 0 then none
  else some ((List.range rows.toNat).map (fun i =>
    (List.range cols.toNat).map (fun j => dis (i * cols.toNat + j))))

/-- Function `biasInit` of `utils.h`, with the generator as the parameter
`dis` as in `uniformWeightInitializer`: entry `i` is draw number `i`. -/
def biasInit (dis : Nat → α) (size : Int) : Option (List α) :=
  if size < 0 then none
  else some ((List.range size.toNat).map dis)

/-! ## activation.h -/

/-- Function `sigmoid` of `activation.h`: `1 / (1 + exp(-x))`. -/
def sigmoid [Field α] (exp : α → α) (x : α) : α :=
  1 / (1 + exp (-x))

/-- Function `sigmoidDerivative` of `activation.h`: `sigmoid(x) * (1 - sigmoid(x))`. -/
def sigmoidDerivative [Field α] (exp : α → α) (x : α) : α :=
  sigmoid exp x * (1 - sigmoid exp x)

/-- Function `vectSigmoid` of `activation.h`: pushes `sigmoid(i)` for every entry `i`. -/
def vectSigmoid [Field α] (exp : α → α) (x : List α) : List α :=
  x.map (sigmoid exp)

/-- Function `vectSigmoidDerivative` of `activation.h`. -/
def vectSigmoidDerivative [Field α] (exp : α → α) (x : List α) : List α :=
  x.map (sigmoidDerivative exp)

/-- Function `relu` of `activation.h`: `x > 0 ? x : 0`. -/
def relu [LinearOrderedField α] (x : α) : α :=
  if x > 0 then x else 0

/-- Function `reluDerivative` of `activation.h`: `x >= 0 ? 1 : 0`. -/
def reluDerivative [LinearOrderedField α] (x : α) : α :=
  if x ≥ 0 then 1 else 0

/-- Function `vectRelu` of `activation.h`. -/
def vectRelu [LinearOrderedField α] (x : List α) : List α :=
  x.map relu

/-- Function `vectReluDerivative` of `activation.h`. -/
def vectReluDerivative [LinearOrderedField α] (x : List α) : List α :=
  x.map reluDerivative

/-- Function `leakyRelu` of `activation.h`: `x > 0 ? x : alpha * x`. -/
def leakyRelu [LinearOrderedField α] (x alpha : α) : α :=
  if x > 0 then x else alpha * x

/-- Function `leakyReluDerivative` of `activation.h`: `x >= 0 ? 1 : alpha`. -/
def leakyReluDerivative [LinearOrderedField α] (x alpha : α) : α :=
  if x ≥ 0 then 1 else alpha

/-- Function `vectLeakyRelu` of `activation.h`. -/
def vectLeakyRelu [LinearOrderedField α] (x : List α) (alpha : α) : List α :=
  x.map (fun i => leakyRelu i alpha)

/-- Function `vectLeakyReluDerivative` of `activation.h`. -/
def vectLeakyReluDerivative [LinearOrderedField α] (x : List α) (alpha : α) :
    List α :=
  x.map (fun i => leakyReluDerivative i alpha)

/-- Function `tanh` of `activation.h`:
`(exp(x) - exp(-x)) / (exp(x) + exp(-x))`. -/
def tanh [Field α] (exp : α → α) (x : α) : α :=
  (exp x - exp (-x)) / (exp x + exp (-x))

/-- Function `tanhDerivative` of `activation.h`: `1 - pow(tanh(x), 2)`. -/
def tanhDerivative [Field α] (exp : α → α) (x : α) : α :=
  1 - (tanh exp x) ^ 2

/-- Function `vectTanh` of `activation.h`. -/
def vectTanh [Field α] (exp : α → α) (x : List α) : List α :=
  x.map (tanh exp)

/-- Function `vectTanhDerivative` of `activation.h`. -/
def vectTanhDerivative [Field α] (exp : α → α) (x : List α) : List α :=
  x.map (tanhDerivative exp)

/-! ## losses.h -/

/-- Function `BCELoss` of `losses.h`: `sum` accumulates
`true_label[i] * log(pred_prob[i]) + (1 - true_label[i]) * log(1 - pred_prob[i])`
over the indices of `pred_prob` (reading `true_label[i]` past its end is the
fault `none`), `size` is the `int` length of `true_label`, and the result is
`-(1.0 / size) * sum`. -/
def BCELoss [Field α] (log : α → α) (true_label pred_prob : List α) : Option α := do
  let sum ← (List.range pred_prob.length).foldlM
    (fun sum i => do
      let y ← true_label[i]?
      let p ← pred_prob[i]?
      pure (sum + (y * log p + (1 - y) * log (1 - p))))
    (0 : α)
  let size : Int := true_label.length
  pure (-(1 / (size : α)) * sum)

/-- Function `BCELossDerivative` of `losses.h`: the one-entry vector
`(pred_prob[0] - true_label[0]) / (pred_prob[0] * (1 - pred_prob[0]))`.
Index `0` of an empty vector is the fault `none`. -/
def BCELossDerivative [Field α] (true_label pred_prob : List α) : Option (List α) := do
  let p0 ← pred_prob[0]?
  let y0 ← true_label[0]?
  pure [(p0 - y0) / (p0 * (1 - p0))]

/-! ## layer.h -/

/-- The loop shared by the `backward` of the four activation classes:
`for (i < derivative.size()) grad_input.push_back(error[i] * derivative[i])`.
Reading `error[i]` past the end of `error` is the fault `none`. -/
def gradInput [Mul α] (error derivative : List α) : Option (List α) :=
  (List.range derivative.length).foldlM
    (fun grad_input i => do
      let e ← error[i]?
      let d ← derivative[i]?
      pure (grad_input ++ [e * d]))
    []

/-- Class `Sigmoid` of `layer.h`: the members `input` and `output` inherited
from `Layer`. -/
structure Sigmoid (α : Type) where
  input : List α := []
  output : List α := []
deriving DecidableEq, Repr

/-- Class `Relu` of `layer.h`. -/
structure Relu (α : Type) where
  input : List α := []
  output : List α := []
deriving DecidableEq, Repr

/-- Class `LeakyRelu` of `layer.h`; the member `alpha` is initialised to
`0.01` by `LeakyRelu.new`. -/
structure LeakyRelu (α : Type) where
  input : List α := []
  output : List α := []
  alpha : α
deriving DecidableEq, Repr

/-- Class `Tanh` of `layer.h`. -/
structure Tanh (α : Type) where
  input : List α := []
  output : List α := []
deriving DecidableEq, Repr

/-- Class `Linear` of `layer.h`. -/
structure Linear (α : Type) where
  input : List α := []
  output : List α := []
  input_neurons : Int
  output_neurons : Int
  weights : List (List α)
  bias : List α
deriving DecidableEq, Repr

/-- `Sigmoid::forward`: stores the input, stores and returns
`vectSigmoid(input_data)`. -/
def Sigmoid.forward [Field α] (exp : α → α) (self : Sigmoid α)
    (input_data : List α) : Sigmoid α × List α :=
  let self := { self with input := input_data }
  let self := { self with output := vectSigmoid exp input_data }
  (self, self.output)

/-- `Sigmoid::backward`: `learning_rate` is not used. -/
def Sigmoid.backward [Field α] (exp : α → α) (self : Sigmoid α)
    (error : List α) (_learning_rate : α) : Option (Sigmoid α × List α) := do
  let derivative := vectSigmoidDerivative exp self.input
  let grad_input ← gradInput error derivative
  pure (self, grad_input)

/-- `Relu::forward`. -/
def Relu.forward [LinearOrderedField α] (self : Relu α)
    (input_data : List α) : Relu α × List α :=
  let self := { self with input := input_data }
  let self := { self with output := vectRelu input_data }
  (self, self.output)

/-- `Relu::backward`. -/
def Relu.backward [LinearOrderedField α] (self : Relu α)
    (error : List α) (_learning_rate : α) : Option (Relu α × List α) := do
  let derivative := vectReluDerivative self.input
  let grad_input ← gradInput error derivative
  pure (self, grad_input)

/-- The default member initialiser `double alpha = 0.01` of `LeakyRelu`. -/
def LeakyRelu.new [Field α] : LeakyRelu α :=
  { alpha := 1 / 100 }

/-- `LeakyRelu::forward`. -/
def LeakyRelu.forward [LinearOrderedField α] (self : LeakyRelu α)
    (input_data : List α) : LeakyRelu α × List α :=
  let self := { self with input := input_data }
  let self := { self with output := vectLeakyRelu input_data self.alpha }
  (self, self.output)

/-- `LeakyRelu::backward`. -/
def LeakyRelu.backward [LinearOrderedField α] (self : LeakyRelu α)
    (error : List α) (_learning_rate : α) : Option (LeakyRelu α × List α) := do
  let derivative := vectLeakyReluDerivative self.input self.alpha
  let grad_input ← gradInput error derivative
  pure (self, grad_input)

/-- `Tanh::forward`. -/
def Tanh.forward [Field α] (exp : α → α) (self : Tanh α)
    (input_data : List α) : Tanh α × List α :=
  let self := { self with input := input_data }
  let self := { self with output := vectTanh exp input_data }
  (self, self.output)

/-- `Tanh::backward`. -/
def Tanh.backward [Field α] (exp : α → α) (self : Tanh α)
    (error : List α) (_learning_rate : α) : Option (Tanh α × List α) := do
  let derivative := vectTanhDerivative exp self.input
  let grad_input ← gradInput error derivative
  pure (self, grad_input)

/-- The constructor `Linear(int input_neurons, int output_neurons)`:
`weights = uniformWeightInitializer(output_neurons, input_neurons)` and
`bias = biasInit(output_neurons)`, each call with a generator of its own
(`wdis`, `bdis`). -/
def Linear.new (wdis bdis : Nat → α) (input_neurons output_neurons : Int) :
    Option (Linear α) := do
  let weights ← uniformWeightInitializer wdis output_neurons input_neurons
  let bias ← biasInit bdis output_neurons
  pure { input_neurons := input_neurons, output_neurons := output_neurons,
         weights := weights, bias := bias }

/-- `Linear::forward`: stores the input, clears `output`, and for
`i < output_neurons` pushes `dotProduct(weights[i], input) + bias[i]`. -/
def Linear.forward [Field α] (self : Linear α) (intput_data : List α) :
    Option (Linear α × List α) := do
  let self := { self with input := intput_data }
  let self := { self with output := [] }
  let output ← (List.range self.output_neurons.toNat).foldlM
    (fun output i => do
      let w ← self.weights[i]?
      let d ← dotProduct w self.input
      let b ← self.bias[i]?
      pure (output ++ [d + b]))
    self.output
  let self := { self with output := output }
  pure (self, self.output)

/-- `Linear::backward`. `input_error[i] = dotProduct(weight_transpose[i], error)`
over the rows of `transpose(weights)`; `weight_error[i][j] = error[i] * input[j]`;
`bias = subtract(bias, scalarVectorMultiplication(bias_error, learning_rate))`;
and for every `i < weight_error.size()`,
`weights[i] = subtract(weights[i], scalarVectorMultiplication(weight_error[i], learning_rate))`.
The locals `bias_error` and `weight_error[i]` that
`scalarVectorMultiplication` overwrites are not read again. -/
def Linear.backward [Field α] (self : Linear α) (error : List α)
    (learning_rate : α) : Option (Linear α × List α) := do
  let weight_transpose ← transpose self.weights
  let bias_error := error
  let input_error ← (List.range weight_transpose.length).foldlM
    (fun input_error i => do
      let wt ← weight_transpose[i]?
      let d ← dotProduct wt error
      pure (input_error ++ [d]))
    []
  let weight_error ← (List.range error.length).foldlM
    (fun weight_error i => do
      let row ← (List.range self.input.length).foldlM
        (fun row j => do
          let e ← error[i]?
          let x ← self.input[j]?
          pure (row ++ [e * x]))
        []
      pure (weight_error ++ [row]))
    []
  let delta_bias := scalarVectorMultiplication bias_error learning_rate
  let bias ← subtract self.bias delta_bias
  let self := { self with bias := bias }
  let weights ← (List.range weight_error.length).foldlM
    (fun weights i => do
      let we ← weight_error[i]?
      let delta_weight := scalarVectorMultiplication we learning_rate
      let wi ← weights[i]?
      let r ← subtract wi delta_weight
      pure (weights.set i r))
    self.weights
  let self := { self with weights := weights }
  pure (self, input_error)

/-- The abstract class `Layer` with its five subclasses: virtual dispatch is a
match on the variant. -/
inductive Layer (α : Type) where
  | Sigmoid (l : Sigmoid α)
  | Relu (l : Relu α)
  | LeakyRelu (l : LeakyRelu α)
  | Tanh (l : Tanh α)
  | Linear (l : Linear α)
deriving DecidableEq, Repr

/-- The virtual call `layer->forward(input_data)`. -/
def Layer.forward [LinearOrderedField α] (exp : α → α) (self : Layer α)
    (input_data : List α) : Option (Layer α × List α) :=
  match self with
  | .Sigmoid l => let r := l.forward exp input_data; some (.Sigmoid r.1, r.2)
  | .Relu l => let r := l.forward input_data; some (.Relu r.1, r.2)
  | .LeakyRelu l => let r := l.forward input_data; some (.LeakyRelu r.1, r.2)
  | .Tanh l => let r := l.forward exp input_data; some (.Tanh r.1, r.2)
  | .Linear l => (l.forward input_data).map (fun r => (.Linear r.1, r.2))

/-- The virtual call `layer->backward(error, learning_rate)`. -/
def Layer.backward [LinearOrderedField α] (exp : α → α) (self : Layer α)
    (error : List α) (learning_rate : α) : Option (Layer α × List α) :=
  match self with
  | .Sigmoid l => (l.backward exp error learning_rate).map (fun r => (.Sigmoid r.1, r.2))
  | .Relu l => (l.backward error learning_rate).map (fun r => (.Relu r.1, r.2))
  | .LeakyRelu l => (l.backward error learning_rate).map (fun r => (.LeakyRelu r.1, r.2))
  | .Tanh l => (l.backward exp error learning_rate).map (fun r => (.Tanh r.1, r.2))
  | .Linear l => (l.backward error learning_rate).map (fun r => (.Linear r.1, r.2))

/-! ## NN.h -/

/-- Class `NN` of `NN.h`: the owned layers in insertion order. -/
structure NN (α : Type) where
  layers : List (Layer α) := []
deriving DecidableEq, Repr

/-- `NN::add`: `layers.emplace_back(layer)`. -/
def NN.add (self : NN α) (layer : Layer α) : NN α :=
  { self with layers := self.layers ++ [layer] }

/-- `NN::forward_propagation`: `data` starts as `input`; the range-for visits
the layers from first to last, each visit replacing the layer by its state
after `forward(data)` and `data` by the returned vector. The first component
of the accumulator holds the layers already visited. -/
def NN.forward_propagation [LinearOrderedField α] (exp : α → α) (self : NN α)
    (input : List α) : Option (NN α × List α) := do
  let (layers, data) ← self.layers.foldlM
    (fun (acc : List (Layer α) × List α) layer => do
      let (layer, data) ← layer.forward exp acc.2
      pure (acc.1 ++ [layer], data))
    ([], input)
  pure ({ self with layers := layers }, data)

/-- `NN::predict`: `return forward_propagation(input)`. -/
def NN.predict [LinearOrderedField α] (exp : α → α) (self : NN α)
    (input : List α) : Option (NN α × List α) :=
  self.forward_propagation exp input

/-- The loop of `NN::back_propagation`: `data` starts as `error`; the reverse
iterator visits the layers from last to first, each visit replacing the layer
by its state after `backward(data, learning_rate)` and `data` by the returned
vector. The result is the layers after the loop and the final `data`. -/
def NN.back_loop [LinearOrderedField α] (exp : α → α) (layers : List (Layer α))
    (error : List α) (learning_rate : α) : Option (List (Layer α) × List α) :=
  layers.reverse.foldlM
    (fun (acc : List (Layer α) × List α) layer => do
      let (layer, data) ← layer.backward exp acc.2 learning_rate
      pure (layer :: acc.1, data))
    ([], error)

/-- `NN::back_propagation`: runs the loop and returns `void`; the final `data`
is dropped. -/
def NN.back_propagation [LinearOrderedField α] (exp : α → α) (self : NN α)
    (error : List α) (learning_rate : α) : Option (NN α) := do
  let (layers, _data) ← NN.back_loop exp self.layers error learning_rate
  pure { self with layers := layers }

/-- `NN::fit`. For `epoch < epochs`: `total_loss` starts at `0`; for every
index `i` of `X`: `out = forward_propagation(X[i])`,
`total_loss += BCELoss(Y[i], out)`,
`back_propagation(BCELossDerivative(Y[i], out), learning_rate)`; then the line
`Epoch: <epoch> Loss: <total_loss>` is printed. The second component of the
result is the printed lines, each as the pair `(epoch, total_loss)`. -/
def NN.fit [LinearOrderedField α] (exp log : α → α) (self : NN α)
    (X Y : List (List α)) (epochs : Int) (learning_rate : α) :
    Option (NN α × List (Nat × α)) :=
  (List.range epochs.toNat).foldlM
    (fun (st : NN α × List (Nat × α)) epoch => do
      let (nn, total_loss) ← (List.range X.length).foldlM
        (fun (acc : NN α × α) i => do
          let x ← X[i]?
          let (nn, out) ← acc.1.forward_propagation exp x
          let y ← Y[i]?
          let loss ← BCELoss log y out
          let total_loss := acc.2 + loss
          let loss_derivative ← BCELossDerivative y out
          let nn ← nn.back_propagation exp loss_derivative learning_rate
          pure (nn, total_loss))
        (st.1, (0 : α))
      pure (nn, st.2 ++ [(epoch, total_loss)]))
    (self, [])

/-! ## `sigmoid` in binary64 arithmetic -/

/-- The integer nearest to `q`; when `q` lies half-way between two integers,
the even one. -/
def roundHalfEven (q : ℚ) : ℤ :=
  if q - ⌊q⌋ < 1 / 2 then ⌊q⌋
  else if 1 / 2 < q - ⌊q⌋ then ⌊q⌋ + 1
  else if ⌊q⌋ % 2 = 0 then ⌊q⌋ else ⌊q⌋ + 1

/-- The rounding of every binary64 operation (round to nearest, ties to even):
the exact result `q` becomes the nearest multiple of `2^(e - 52)`, where
`2^e ≤ |q| < 2^(e + 1)` and `e` is not taken below `-1022` (below `2^(-1022)`
the doubles are the multiples of `2^(-1074)`). A result of magnitude `2^1024` or
more, which binary64 replaces by an infinity, is not represented. -/
def roundDouble (q : ℚ) : ℚ :=
  let e : ℤ := max (Int.log 2 |q|) (-1022)
  roundHalfEven (q / 2 ^ (e - 52)) * 2 ^ (e - 52)

/-- Function `sigmoid` of `activation.h`, `1 / (1 + exp(-x))`, on doubles:
`-x` is exact, `exp` returns a double, and the sum and the quotient are each
rounded. -/
def sigmoidDouble (exp : ℚ → ℚ) (x : ℚ) : ℚ :=
  roundDouble (1 / roundDouble (1 + exp (-x)))

/-- Function `vectSigmoid` of `activation.h` on doubles. -/
def vectSigmoidDouble (exp : ℚ → ℚ) (x : List ℚ) : List ℚ :=
  x.map (sigmoidDouble exp)

/-- `Sigmoid::forward` on doubles: stores the input, stores and returns
`vectSigmoid(input_data)`. -/
def Sigmoid.forwardDouble (exp : ℚ → ℚ) (self : Sigmoid ℚ)
    (input_data : List ℚ) : Sigmoid ℚ × List ℚ :=
  let self := { self with input := input_data }
  let self := { self with output := vectSigmoidDouble exp input_data }
  (self, self.output)

/-- The double `0x1.898471fca6055p-54`, about `8.533e-17`: the double nearest
to `e^(-37)`, which `exp(-37.0)` returns. -/
def expNeg37 : ℚ :=
  6922830684512341 / 2 ^ 106

/-! ## Auxiliary notions used in the statements -/

/-- The `r × c` table with entry `f i j` in row `i`, column `j`. -/
def table (r c : Nat) (f : Nat → Nat → α) : List (List α) :=
  (List.range r).map (fun i => (List.range c).map (fun j => f i j))

/-- Entry `[i][j]` of a matrix, `0` outside it. -/
def entry [Zero α] (m : List (List α)) (i j : Nat) : α :=
  (m.getD i []).getD j 0

/-- A matrix with `r` rows, all of length `c`. -/
def IsMatrix (m : List (List α)) (r c : Nat) : Prop :=
  m.length = r ∧ ∀ row, row ∈ m → row.length = c

instance (m : List (List α)) (r c : Nat) : Decidable (IsMatrix m r c) := by
  unfold IsMatrix; infer_instance

/-- The dimension invariant of a dense layer with `input_size = m` and
`output_size = n`: the two size members hold `m` and `n`, `weights` has `n`
rows of length `m`, and `bias` has length `n`. -/
def Linear.HasDims (l : Linear α) (m n : Nat) : Prop :=
  l.input_neurons = (m : Int) ∧ l.output_neurons = (n : Int) ∧
    IsMatrix l.weights n m ∧ l.bias.length = n

instance (l : Linear α) (m n : Nat) : Decidable (l.HasDims m n) := by
  unfold Linear.HasDims; infer_instance

/-- A dense layer with two inputs and two outputs over `ℚ`, whose cached input
is `[1, 1]`; used to instantiate the theorems below. -/
def exampleLinear : Linear ℚ :=
  { input := [1, 1], input_neurons := 2, output_neurons := 2,
    weights := [[1, 2], [3, 4]], bias := [10, 20] }

/-- A dense layer with two inputs and no output, as `Linear(2, 0)` builds it. -/
def emptyLinear : Linear ℚ :=
  { input_neurons := 2, output_neurons := 0, weights := [], bias := [] }

/-- The forward pass as the composition `Lk.forward(... L1.forward(x) ...)`:
the first layer is run on `x`, the remaining layers on what it returns. -/
def forwardAll [LinearOrderedField α] (exp : α → α) :
    List (Layer α) → List α → Option (List (Layer α) × List α)
  | [], x => some ([], x)
  | l :: ls, x =>
    (l.forward exp x).bind (fun r =>
      (forwardAll exp ls r.2).map (fun q => (r.1 :: q.1, q.2)))

/-- The backward pass in reverse insertion order: the layers after the first
are run on `e` (the last one first), then the first layer is run on the
gradient they return. -/
def backwardAll [LinearOrderedField α] (exp : α → α) :
    List (Layer α) → List α → α → Option (List (Layer α) × List α)
  | [], e, _ => some ([], e)
  | l :: ls, e, r =>
    (backwardAll exp ls e r).bind (fun q =>
      (l.backward exp q.2 r).map (fun p => (p.1 :: q.1, p.2)))

/-- The four activation variants, as opposed to the dense layer. -/
def Layer.isActivation : Layer α → Bool
  | .Linear _ => false
  | _ => true

/-- The layer with its cached `input` and `output` buffers emptied: what is left
is the variant and its parameters (`alpha`; the sizes, `weights` and `bias`). -/
def Layer.eraseCache : Layer α → Layer α
  | .Sigmoid l => .Sigmoid { l with input := [], output := [] }
  | .Relu l => .Relu { l with input := [], output := [] }
  | .LeakyRelu l => .LeakyRelu { l with input := [], output := [] }
  | .Tanh l => .Tanh { l with input := [], output := [] }
  | .Linear l => .Linear { l with input := [], output := [] }

/-- The trainable parameters of a layer: `weights` and `bias` of a dense layer,
nothing for an activation layer. -/
def Layer.weightsAndBias : Layer α → Option (List (List α) × List α)
  | .Linear l => some (l.weights, l.bias)
  | _ => none

/-- The update `step(s, x, y)` of online gradient descent: run
`forward_propagation(x)` on the pipeline state `s` obtaining `out`, then run
`back_propagation(BCELossDerivative(y, out), learning_rate)`. -/
def fitStep [LinearOrderedField α] (exp : α → α) (learning_rate : α) (s : NN α)
    (xy : List α × List α) : Option (NN α) :=
  (s.forward_propagation exp xy.1).bind (fun r =>
    (BCELossDerivative xy.2 r.2).bind (fun d =>
      r.1.back_propagation exp d learning_rate))

/-- The pipeline state after `k` epochs: `step` applied to the samples in index
order, the whole pass repeated `k` times. -/
def stateAfterEpochs [LinearOrderedField α] (exp : α → α) (learning_rate : α)
    (samples : List (List α × List α)) (s : NN α) : Nat → Option (NN α)
  | 0 => some s
  | k + 1 =>
    (stateAfterEpochs exp learning_rate samples s k).bind (fun sk =>
      samples.foldlM (fitStep exp learning_rate) sk)

/-- The loss of one epoch that starts in the state `s`: the sum over the samples
of `BCELoss(y, out)`, where `out` is the prediction computed in the state
before that sample's update. -/
def epochLoss [LinearOrderedField α] (exp log : α → α) (learning_rate : α) :
    NN α → List (List α × List α) → Option α
  | _, [] => some 0
  | s, xy :: rest =>
    (s.forward_propagation exp xy.1).bind (fun r =>
      (BCELoss log xy.2 r.2).bind (fun loss =>
        (fitStep exp learning_rate s xy).bind (fun s' =>
          (epochLoss exp log learning_rate s' rest).map (fun t => loss + t))))

/-- The lines reported by the first `k` epochs: line `e` carries the epoch index
`e` and the loss of the epoch that starts in the state after `e` epochs. -/
def reportedLosses [LinearOrderedField α] (exp log : α → α) (learning_rate : α)
    (samples : List (List α × List α)) (s : NN α) : Nat → Option (List (Nat × α))
  | 0 => some []
  | k + 1 =>
    (reportedLosses exp log learning_rate samples s k).bind (fun ls =>
      (stateAfterEpochs exp learning_rate samples s k).bind (fun sk =>
        (epochLoss exp log learning_rate sk samples).map (fun t => ls ++ [(k, t)])))

/-- The decision printed by `main` of `main.cpp` for a predicted probability:
`output_prob[0] > 0.5` gives `1`, otherwise `0`. -/
def threshold [LinearOrderedField α] (p : α) : α :=
  if p > 1 / 2 then 1 else 0

/-- The inputs `X` of `main`. -/
def xorX [Field α] : List (List α) :=
  [[0, 0], [0, 1], [1, 0], [1, 1]]

/-- The labels `y` of `main`. -/
def xorY [Field α] : List (List α) :=
  [[0], [1], [1], [0]]

/-- The pipeline assembled by `main`:
`Linear(2, 3)`, `Relu`, `Linear(3, 3)`, `Relu`, `Linear(3, 1)`, `Sigmoid`, each
dense layer with the draws of its two generators. -/
def mainPipeline [Field α] (w1 b1 w2 b2 w3 b3 : Nat → α) : Option (NN α) := do
  let l1 ← Linear.new w1 b1 2 3
  let l2 ← Linear.new w2 b2 3 3
  let l3 ← Linear.new w3 b3 3 1
  let neural_network : NN α := {}
  let neural_network := neural_network.add (.Linear l1)
  let neural_network := neural_network.add (.Relu {})
  let neural_network := neural_network.add (.Linear l2)
  let neural_network := neural_network.add (.Relu {})
  let neural_network := neural_network.add (.Linear l3)
  let neural_network := neural_network.add (.Sigmoid {})
  pure neural_network

/-- The four test blocks of `main` after training: for each input in turn,
`output_prob = predict(input)` and the printed pair of `output_prob[0]` and the
thresholded `output[0]`. -/
def mainPredictions [LinearOrderedField α] (exp : α → α) (nn : NN α) :
    Option (List (α × α)) :=
  ((xorX : List (List α)).foldlM
    (fun (st : NN α × List (α × α)) input => do
      let (nn, output_prob) ← st.1.predict exp input
      let p ← output_prob[0]?
      pure (nn, st.2 ++ [(p, threshold p)]))
    (nn, [])).map (fun (st : NN α × List (α × α)) => st.2)

/-- The program `main` of `main.cpp`: assemble the pipeline, `fit(X, y, 10000, 0.01)`,
then run the four test blocks. The result is the printed probability and
decision for the inputs `[0,0]`, `[0,1]`, `[1,0]`, `[1,1]`, in this order. -/
def main [LinearOrderedField α] (exp log : α → α) (w1 b1 w2 b2 w3 b3 : Nat → α) :
    Option (List (α × α)) := do
  let neural_network ← mainPipeline w1 b1 w2 b2 w3 b3
  let (neural_network, _printed) ← neural_network.fit exp log xorX xorY 10000 (1 / 100)
  mainPredictions exp neural_network

/-- The affine map of a dense layer with `n` rows of length `m`: entry `i` is
`(Σ_{j<m} weights[i][j] * x[j]) + bias[i]`. -/
def affine [Field α] (weights : List (List α)) (bias : List α) (m n : Nat) (x : List α) :
    List α :=
  (List.range n).map (fun i =>
    (∑ j in Finset.range m, entry weights i j * x.getD j 0) + bias.getD i 0)

/-- The transpose-matrix-vector product of a dense layer with `n` rows of length
`m`: entry `j` is `Σ_{i<n} weights[i][j] * e[i]`. -/
def inputGradient [Field α] (weights : List (List α)) (m n : Nat) (e : List α) : List α :=
  (List.range m).map (fun j => ∑ i in Finset.range n, entry weights i j * e.getD i 0)

/-- The dense layer after one gradient-descent step against the error `e`:
`bias[i] - e[i] * r` and `weights[i][j] - e[i] * input[j] * r`. -/
def Linear.updated [Field α] (l : Linear α) (m n : Nat) (e : List α) (r : α) : Linear α :=
  { l with
      bias := (List.range n).map (fun i => l.bias.getD i 0 - e.getD i 0 * r)
      weights := table n m (fun i j =>
        entry l.weights i j - e.getD i 0 * l.input.getD j 0 * r) }

/-- The pipeline has the layers assembled by `main`, each dense layer with the
dimension invariant of its sizes. -/
def XorShaped (nn : NN α) : Prop :=
  ∃ l1 r1 l2 r2 l3 s,
    nn.layers = [.Linear l1, .Relu r1, .Linear l2, .Relu r2, .Linear l3, .Sigmoid s] ∧
      l1.HasDims 2 3 ∧ l2.HasDims 3 3 ∧ l3.HasDims 3 1

/-- All weights of the dense layer are `0`. -/
def Linear.ZeroWeights [Zero α] (l : Linear α) : Prop :=
  ∀ i j, entry l.weights i j = 0

/-- All biases of the dense layer are `0`. -/
def Linear.ZeroBias [Zero α] (l : Linear α) : Prop :=
  ∀ i, l.bias.getD i 0 = 0

/-- The pipeline of `main` in which every weight is `0` and every bias is `0`
except for the bias `beta` of the last dense layer. -/
def ZeroTrained [Zero α] (nn : NN α) (beta : α) : Prop :=
  ∃ l1 r1 l2 r2 l3 s,
    nn.layers = [.Linear l1, .Relu r1, .Linear l2, .Relu r2, .Linear l3, .Sigmoid s] ∧
      (l1.HasDims 2 3 ∧ l2.HasDims 3 3 ∧ l3.HasDims 3 1) ∧
      (l1.ZeroWeights ∧ l1.ZeroBias) ∧ (l2.ZeroWeights ∧ l2.ZeroBias) ∧
      (l3.ZeroWeights ∧ l3.bias.getD 0 0 = beta)

/-- The pipeline with the single layer `Relu` over `ℚ`, nothing cached. -/
def reluPipeline : NN ℚ :=
  { layers := [.Relu {}] }

/-- A pipeline over `ℚ` with a dense layer of two inputs and one output
followed by `Sigmoid`. -/
def examplePipeline : NN ℚ :=
  { layers := [.Linear { input_neurons := 2, output_neurons := 1,
                         weights := [[1, 2]], bias := [3] },
               .Sigmoid {}] }

/-- A `Relu` layer over `ℚ` whose cached input is `[0, -1]`. -/
def reluLayer : Layer ℚ :=
  .Relu { input := [0, -1] }

/-! ## Loop lemmas -/

theorem foldlM_range_inv {σ : Type} (n : Nat) (step : σ → Nat → Option σ) (I : Nat → σ)
    (h : ∀ i, i < n → step (I i) i = some (I (i + 1))) :
    (List.range n).foldlM step (I 0) = some (I n) := by
  induction n with
  | zero => rfl
  | succ k ih =>
    rw [List.range_succ, List.foldlM_append, ih (fun i hi => h i (Nat.lt_succ_of_lt hi))]
    simp [h k (Nat.lt_succ_self k)]

theorem getElem?_range_map {β : Type} (n k : Nat) (f : Nat → β) :
    ((List.range n).map f)[k]? = if k < n then some (f k) else none := by
  by_cases h : k < n
  · simp [h, List.getElem?_range h]
  · simp [h, List.getElem?_eq_none (l := (List.range n).map f) (by simpa using h)]

theorem table_set (r c : Nat) (f : Nat → Nat → α) (i j : Nat) (x : α) (hi : i < r) (hj : j < c) :
    (table r c f).set i (((List.range c).map (fun j => f i j)).set j x)
      = table r c (fun i' j' => if i' = i ∧ j' = j then x else f i' j') := by
  apply List.ext_getElem?
  intro a
  simp only [table, List.getElem?_set, getElem?_range_map, List.length_map, List.length_range]
  by_cases ha : a < r
  · by_cases hai : i = a
    · subst hai
      simp only [ha, hi, if_true]
      congr 1
      apply List.ext_getElem?
      intro b
      simp only [List.getElem?_set, getElem?_range_map, List.length_map, List.length_range]
      by_cases hb : b < c
      · by_cases hbj : j = b
        · subst hbj; simp [hb]
        · have : ¬ b = j := fun h => hbj h.symm
          simp [hb, hbj, this]
      · have : ¬ j = b := fun h => hb (h ▸ hj)
        simp [hb, this]
    · have : ¬ a = i := fun h => hai h.symm
      simp [ha, hai, this]
  · have : ¬ i = a := fun h => ha (h ▸ hi)
    simp [ha, this]

theorem table_congr (r c : Nat) (f g : Nat → Nat → α)
    (h : ∀ i j, i < r → j < c → f i j = g i j) : table r c f = table r c g := by
  unfold table
  apply List.map_congr_left
  intro i hi
  apply List.map_congr_left
  intro j hj
  exact h i j (List.mem_range.mp hi) (List.mem_range.mp hj)

theorem table_getElem? (r c : Nat) (f : Nat → Nat → α) (i : Nat) (hi : i < r) :
    (table r c f)[i]? = some ((List.range c).map (fun j => f i j)) := by
  simp [table, getElem?_range_map, hi]

theorem table_length (r c : Nat) (f : Nat → Nat → α) : (table r c f).length = r := by
  simp [table]

theorem IsMatrix.getElem? [Zero α] {m : List (List α)} {r c : Nat} (h : IsMatrix m r c)
    (i : Nat) (hi : i < r) :
    ∃ row, m[i]? = some row ∧ row.length = c ∧ ∀ j, row.getD j 0 = entry m i j := by
  have hlt : i < m.length := h.1 ▸ hi
  refine ⟨m[i], List.getElem?_eq_getElem hlt, h.2 _ (List.getElem_mem hlt), ?_⟩
  intro j
  simp [entry, List.getD_eq_getElem?_getD, List.getElem?_eq_getElem hlt]

theorem IsMatrix.eq_table [Zero α] {m : List (List α)} {r c : Nat} (h : IsMatrix m r c) :
    m = table r c (entry m) := by
  apply List.ext_getElem?
  intro i
  by_cases hi : i < r
  · obtain ⟨row, hrow, hlen, hent⟩ := h.getElem? i hi
    rw [table_getElem? _ _ _ _ hi, hrow]
    congr 1
    apply List.ext_getElem?
    intro j
    rw [getElem?_range_map]
    by_cases hj : j < c
    · have hj2 : j < row.length := hlen ▸ hj
      simp [hj, ← hent j, List.getD_eq_getElem?_getD, List.getElem?_eq_getElem hj2]
    · have hj2 : row.length ≤ j := by omega
      simp [hj, List.getElem?_eq_none hj2]
  · rw [List.getElem?_eq_none (by rw [h.1]; omega),
      List.getElem?_eq_none (by rw [table_length]; omega)]

theorem table_isMatrix (r c : Nat) (f : Nat → Nat → α) : IsMatrix (table r c f) r c := by
  refine ⟨table_length r c f, ?_⟩
  intro row hrow
  simp only [table, List.mem_map, List.mem_range] at hrow
  obtain ⟨i, _, rfl⟩ := hrow
  simp

theorem entry_table [Zero α] (r c : Nat) (f : Nat → Nat → α) (i j : Nat)
    (hi : i < r) (hj : j < c) : entry (table r c f) i j = f i j := by
  simp [entry, List.getD_eq_getElem?_getD, table_getElem? r c f i hi, getElem?_range_map, hj]

/-- On a matrix with `r ≥ 1` rows of length `c`, `transpose` returns the
`c × r` matrix with entry `[j][i]` equal to `m[i][j]`. -/
theorem transpose_eq [Zero α] (m : List (List α)) (r c : Nat) (h : IsMatrix m r c)
    (hr : 0 < r) : transpose m = some (table c r (fun j i => entry m i j)) := by
  obtain ⟨m0, hm0, hlen0, -⟩ := h.getElem? 0 hr
  have hmlen : m.length = r := h.1
  unfold transpose
  simp only [hm0, Option.bind_eq_bind, Option.some_bind, hlen0, hmlen]
  have outer := foldlM_range_inv r
    (fun trans_vec i => do
      let mi ← m[i]?
      (List.range mi.length).foldlM
        (fun trans_vec j => do
          let tj ← trans_vec[j]?
          let tj := if tj.length ≠ r then resize tj r else tj
          let x ← mi[j]?
          if i < tj.length then pure (trans_vec.set j (tj.set i x)) else none)
        trans_vec)
    (fun i => table c r (fun j' i' => if i' < i then entry m i' j' else 0))
    (fun i hi => by
      obtain ⟨mi, hmi, hleni, hent⟩ := h.getElem? i hi
      simp only [hmi, Option.bind_eq_bind, Option.some_bind, hleni]
      have inner := foldlM_range_inv c
        (fun trans_vec j => do
          let tj ← trans_vec[j]?
          let tj := if tj.length ≠ r then resize tj r else tj
          let x ← mi[j]?
          if i < tj.length then pure (trans_vec.set j (tj.set i x)) else none)
        (fun j => table c r (fun j' i' =>
          if i' < i ∨ (i' = i ∧ j' < j) then entry m i' j' else 0))
        (fun j hj => by
          have hj2 : j < mi.length := hleni ▸ hj
          simp only [table_getElem? _ _ _ _ hj, Option.bind_eq_bind, Option.some_bind,
            List.length_map, List.length_range, ne_eq, not_true_eq_false, if_false,
            List.getElem?_eq_getElem hj2, hi, if_true, pure]
          rw [table_set c r _ j i _ hj hi]
          congr 1
          apply table_congr
          intro j' i' _ _
          have hx : mi[j] = entry m i j := by
            rw [← hent j, List.getD_eq_getElem?_getD, List.getElem?_eq_getElem hj2]; rfl
          by_cases h1 : j' = j ∧ i' = i
          · obtain ⟨rfl, rfl⟩ := h1
            simp [hx]
          · have h2 : (i' < i ∨ (i' = i ∧ j' < j + 1)) ↔ (i' < i ∨ (i' = i ∧ j' < j)) := by
              constructor
              · rintro (h3 | ⟨h3, h4⟩)
                · exact Or.inl h3
                · exact Or.inr ⟨h3, by
                    rcases Nat.lt_succ_iff_lt_or_eq.mp h4 with h5 | h5
                    · exact h5
                    · exact absurd ⟨h5, h3⟩ h1⟩
              · rintro (h3 | ⟨h3, h4⟩)
                · exact Or.inl h3
                · exact Or.inr ⟨h3, Nat.lt_succ_of_lt h4⟩
            simp only [h1, if_false, h2])
      have e0 : table c r (fun j' i' => if i' < i ∨ (i' = i ∧ j' < 0) then entry m i' j' else 0)
          = table c r (fun j' i' => if i' < i then entry m i' j' else 0) := by
        apply table_congr; intro j' i' _ _; simp
      have e1 : table c r (fun j' i' => if i' < i ∨ (i' = i ∧ j' < c) then entry m i' j' else 0)
          = table c r (fun j' i' => if i' < i + 1 then entry m i' j' else 0) := by
        apply table_congr; intro j' i' hj' _
        have : (i' < i ∨ (i' = i ∧ j' < c)) ↔ i' < i + 1 := by
          constructor
          · rintro (h3 | ⟨h3, _⟩) <;> omega
          · intro h3
            rcases Nat.lt_succ_iff_lt_or_eq.mp h3 with h5 | h5
            · exact Or.inl h5
            · exact Or.inr ⟨h5, hj'⟩
        simp only [this]
      beta_reduce at inner
      rw [e0, e1] at inner
      exact inner)
  have e0 : table c r (fun j' i' => if i' < 0 then entry m i' j' else (0 : α))
      = List.replicate c (List.replicate r 0) := by
    apply List.ext_getElem?
    intro j
    by_cases hj : j < c
    · rw [table_getElem? _ _ _ _ hj, List.getElem?_replicate_of_lt hj]
      congr 1
      apply List.ext_getElem?
      intro i
      rw [getElem?_range_map, List.getElem?_replicate]
      simp
    · rw [List.getElem?_eq_none (by rw [table_length]; omega),
        List.getElem?_eq_none (by rw [List.length_replicate]; omega)]
  have e1 : table c r (fun j' i' => if i' < r then entry m i' j' else (0 : α))
      = table c r (fun j i => entry m i j) := by
    apply table_congr; intro j' i' _ hi'; simp [hi']
  beta_reduce at outer
  rw [e0, e1] at outer
  exact outer

theorem foldlM_range_push {β : Type} (n : Nat) (step : List β → Nat → Option (List β))
    (g : Nat → β) (init : List β)
    (h : ∀ acc i, i < n → step acc i = some (acc ++ [g i])) :
    (List.range n).foldlM step init = some (init ++ (List.range n).map g) := by
  have := foldlM_range_inv n step (fun k => init ++ (List.range k).map g)
    (fun i hi => by simp [h _ i hi, List.range_succ])
  simpa using this

theorem getElem?_getD [Zero α] (v : List α) (i : Nat) (hi : i < v.length) :
    v[i]? = some (v.getD i 0) := by
  simp [List.getD_eq_getElem?_getD, List.getElem?_eq_getElem hi]

theorem dotProduct_eq [Field α] (v1 v2 : List α) (h : v1.length ≤ v2.length) :
    dotProduct v1 v2 = some (∑ i in Finset.range v1.length, v1.getD i 0 * v2.getD i 0) := by
  have := foldlM_range_inv v1.length
    (fun res i => do
      let a ← v1[i]?
      let b ← v2[i]?
      pure (res + a * b))
    (fun k => ∑ i in Finset.range k, v1.getD i 0 * v2.getD i 0)
    (fun i hi => by
      have hi2 : i < v2.length := lt_of_lt_of_le hi h
      simp [Finset.sum_range_succ, getElem?_getD, hi, hi2])
  simpa [dotProduct] using this

theorem subtract_eq [Field α] (v1 v2 : List α) (h : v1.length ≤ v2.length) :
    subtract v1 v2 = some ((List.range v1.length).map (fun i => v1.getD i 0 - v2.getD i 0)) := by
  have := foldlM_range_push v1.length
    (fun output i => do
      let a ← v1[i]?
      let b ← v2[i]?
      pure (output ++ [a - b]))
    (fun i => v1.getD i 0 - v2.getD i 0) []
    (fun acc i hi => by
      have hi2 : i < v2.length := lt_of_lt_of_le hi h
      simp [getElem?_getD, hi, hi2])
  simpa [subtract] using this

theorem gradInput_eq [Field α] (error derivative : List α)
    (h : derivative.length ≤ error.length) :
    gradInput error derivative
      = some ((List.range derivative.length).map
          (fun i => error.getD i 0 * derivative.getD i 0)) := by
  have := foldlM_range_push derivative.length
    (fun grad_input i => do
      let e ← error[i]?
      let d ← derivative[i]?
      pure (grad_input ++ [e * d]))
    (fun i => error.getD i 0 * derivative.getD i 0) []
    (fun acc i hi => by
      have hi2 : i < error.length := lt_of_lt_of_le hi h
      simp [getElem?_getD, hi, hi2])
  simpa [gradInput] using this

/-- Closed form of `Linear::forward` on a layer that satisfies the dimension
invariant and an input at least as long as a weight row. -/
theorem Linear.forward_eq [Field α] (self : Linear α) (x : List α) (m n : Nat)
    (hd : self.HasDims m n) (hx : m ≤ x.length) :
    self.forward x =
      some ({ self with
                input := x
                output := (List.range n).map (fun i =>
                  (∑ j in Finset.range m, entry self.weights i j * x.getD j 0)
                    + self.bias.getD i 0) },
            (List.range n).map (fun i =>
              (∑ j in Finset.range m, entry self.weights i j * x.getD j 0)
                + self.bias.getD i 0)) := by
  obtain ⟨-, hn, hW, hb⟩ := hd
  have := foldlM_range_push n
    (fun output i => do
      let w ← self.weights[i]?
      let d ← dotProduct w x
      let b ← self.bias[i]?
      pure (output ++ [d + b]))
    (fun i => (∑ j in Finset.range m, entry self.weights i j * x.getD j 0)
      + self.bias.getD i 0) []
    (fun acc i hi => by
      obtain ⟨row, hrow, hlen, hent⟩ := hW.getElem? i hi
      have hi2 : i < self.bias.length := hb ▸ hi
      simp only [hrow, dotProduct_eq row x (by omega), hlen, hent, getElem?_getD _ _ hi2,
        Option.bind_eq_bind, Option.some_bind, pure])
  simp only [List.nil_append] at this
  unfold Linear.forward
  dsimp only
  rw [hn, Int.toNat_ofNat, this]
  rfl

theorem range_map_getD [Zero α] (n : Nat) (g : Nat → α) (j : Nat) (hj : j < n) :
    ((List.range n).map g).getD j 0 = g j := by
  simp [List.getD_eq_getElem?_getD, getElem?_range_map, hj]

theorem range_map_congr {β : Type} (n : Nat) (f g : Nat → β) (h : ∀ i, i < n → f i = g i) :
    (List.range n).map f = (List.range n).map g :=
  List.map_congr_left (fun i hi => h i (List.mem_range.mp hi))

theorem table_set_row (r c : Nat) (f : Nat → Nat → α) (i : Nat) (g : Nat → α) :
    (table r c f).set i ((List.range c).map g)
      = table r c (fun i' j' => if i' = i then g j' else f i' j') := by
  apply List.ext_getElem?
  intro a
  simp only [table, List.getElem?_set, getElem?_range_map, List.length_map, List.length_range]
  by_cases ha : a < r
  · by_cases hai : i = a
    · subst hai
      simp [ha]
    · have : ¬ a = i := fun h => hai h.symm
      simp [ha, hai, this]
  · by_cases hai : i = a
    · subst hai
      simp [ha]
    · simp [ha, hai]

/-- Closed form of `Linear::backward` on a layer that satisfies the dimension
invariant with at least one output, a cached input of length `m` and an error
of length `n`. -/
theorem Linear.backward_eq [Field α] (self : Linear α) (error : List α) (learning_rate : α)
    (m n : Nat) (hd : self.HasDims m n) (hx : self.input.length = m)
    (he : error.length = n) (hn : 0 < n) :
    self.backward error learning_rate =
      some ({ self with
                bias := (List.range n).map (fun i =>
                  self.bias.getD i 0 - error.getD i 0 * learning_rate)
                weights := table n m (fun i j =>
                  entry self.weights i j
                    - error.getD i 0 * self.input.getD j 0 * learning_rate) },
            (List.range m).map (fun j =>
              ∑ i in Finset.range n, entry self.weights i j * error.getD i 0)) := by
  obtain ⟨-, -, hW, hb⟩ := hd
  have h1 := transpose_eq self.weights n m hW hn
  have h2 := foldlM_range_push m
    (fun input_error i => do
      let wt ← (table m n (fun j i => entry self.weights i j))[i]?
      let d ← dotProduct wt error
      pure (input_error ++ [d]))
    (fun j => ∑ i in Finset.range n, entry self.weights i j * error.getD i 0) []
    (fun acc j hj => by
      beta_reduce
      rw [table_getElem? _ _ _ _ hj]
      simp only [Option.bind_eq_bind, Option.some_bind]
      rw [dotProduct_eq _ _ (by simp [he])]
      simp only [List.length_map, List.length_range, Option.some_bind, pure]
      congr 3
      apply Finset.sum_congr rfl
      intro i hi
      rw [range_map_getD _ _ _ (Finset.mem_range.mp hi)])
  have h3 := foldlM_range_push n
    (fun weight_error i => do
      let row ← (List.range self.input.length).foldlM
        (fun row j => do
          let e ← error[i]?
          let x ← self.input[j]?
          pure (row ++ [e * x]))
        []
      pure (weight_error ++ [row]))
    (fun i => (List.range m).map (fun j => error.getD i 0 * self.input.getD j 0)) []
    (fun acc i hi => by
      have hi2 : i < error.length := he ▸ hi
      have := foldlM_range_push m
        (fun row j => do
          let e ← error[i]?
          let x ← self.input[j]?
          pure (row ++ [e * x]))
        (fun j => error.getD i 0 * self.input.getD j 0) []
        (fun acc j hj => by
          have hj2 : j < self.input.length := hx ▸ hj
          simp only [getElem?_getD _ _ hi2, getElem?_getD _ _ hj2, Option.bind_eq_bind,
            Option.some_bind, pure])
      beta_reduce
      rw [hx, this]
      rfl)
  have h4 := subtract_eq self.bias (scalarVectorMultiplication error learning_rate)
    (by simp [scalarVectorMultiplication, hb, he])
  have h4' : (List.range self.bias.length).map (fun i =>
        self.bias.getD i 0 - (scalarVectorMultiplication error learning_rate).getD i 0)
      = (List.range n).map (fun i => self.bias.getD i 0 - error.getD i 0 * learning_rate) := by
    rw [hb]
    apply range_map_congr
    intro i hi
    have hi2 : i < error.length := he ▸ hi
    simp [scalarVectorMultiplication, List.getD_eq_getElem?_getD,
      List.getElem?_eq_getElem hi2]
  rw [h4'] at h4
  have h5 := foldlM_range_inv n
    (fun weights i => do
      let we ← (table n m (fun i j => error.getD i 0 * self.input.getD j 0))[i]?
      let delta_weight := scalarVectorMultiplication we learning_rate
      let wi ← weights[i]?
      let r ← subtract wi delta_weight
      pure (weights.set i r))
    (fun k => table n m (fun i j =>
      if i < k then
        entry self.weights i j - error.getD i 0 * self.input.getD j 0 * learning_rate
      else entry self.weights i j))
    (fun i hi => by
      beta_reduce
      rw [table_getElem? _ _ _ _ hi, table_getElem? _ _ _ _ hi]
      simp only [Option.bind_eq_bind, Option.some_bind]
      rw [subtract_eq _ _ (by simp [scalarVectorMultiplication])]
      simp only [Option.some_bind, pure, List.length_map, List.length_range]
      rw [table_set_row]
      congr 1
      apply table_congr
      intro i' j' _ hj'
      rw [range_map_getD _ _ _ hj']
      have hsv : (scalarVectorMultiplication
            ((List.range m).map (fun j => error.getD i 0 * self.input.getD j 0))
            learning_rate).getD j' 0
          = error.getD i 0 * self.input.getD j' 0 * learning_rate := by
        unfold scalarVectorMultiplication
        rw [List.map_map, range_map_getD _ _ _ hj']
        rfl
      rw [hsv]
      by_cases h1 : i' = i
      · subst h1
        simp
      · by_cases h2 : i' < i
        · have : i' < i + 1 := Nat.lt_succ_of_lt h2
          simp [h1, h2, this]
        · have : ¬ i' < i + 1 := by omega
          simp [h1, h2, this])
  have e0 : table n m (fun i j =>
        if i < 0 then
          entry self.weights i j - error.getD i 0 * self.input.getD j 0 * learning_rate
        else entry self.weights i j) = self.weights := by
    rw [hW.eq_table]
    apply table_congr
    intro i j hi hj
    simp [entry_table _ _ _ _ _ hi hj]
  have e1 : table n m (fun i j =>
        if i < n then
          entry self.weights i j - error.getD i 0 * self.input.getD j 0 * learning_rate
        else entry self.weights i j)
      = table n m (fun i j =>
          entry self.weights i j - error.getD i 0 * self.input.getD j 0 * learning_rate) := by
    apply table_congr
    intro i j hi _
    simp [hi]
  beta_reduce at h5
  rw [e0, e1] at h5
  simp only [List.nil_append, Option.bind_eq_bind] at h2 h3 h5
  unfold Linear.backward
  simp only [h1, Option.bind_eq_bind, Option.some_bind, table_length, he, h2, h3, h4,
    List.length_map, List.length_range]
  rw [show (List.range n).map
        (fun i => (List.range m).map (fun j => error.getD i 0 * self.input.getD j 0))
      = table n m (fun i j => error.getD i 0 * self.input.getD j 0) from rfl]
  rw [h5]
  rfl

theorem Linear.backward_eq_none_of_no_rows [Field α] (self : Linear α) (error : List α)
    (learning_rate : α) (h : self.weights = []) : self.backward error learning_rate = none := by
  simp [Linear.backward, transpose, h]

/-! ## The dense layer -/

/-- C1. Gradient-descent contract of `Linear::backward`: on a dense layer with
`n` weight rows of length `m`, a bias of length `n`, a cached input `x` of
length `m` and an error `e` of length `n`, the state after `backward(e, r)` has
`W'[i][j] = W[i][j] - r * (e[i] * x[j])` for all `i < n`, `j < m` and
`b'[i] = b[i] - r * e[i]` for all `i < n`, with unchanged shapes; and the call
does return whenever there is at least one row. -/
theorem Linear.backward_gradient_descent [Field α] (self : Linear α) (e : List α) (r : α)
    (m n : Nat) (hd : self.HasDims m n) (hx : self.input.length = m) (he : e.length = n) :
    (0 < n → (self.backward e r).isSome = true) ∧
    ∀ l' g, self.backward e r = some (l', g) →
      (IsMatrix l'.weights n m ∧
        ∀ i j, i < n → j < m →
          entry l'.weights i j
            = entry self.weights i j - r * (e.getD i 0 * self.input.getD j 0)) ∧
      (l'.bias.length = n ∧
        ∀ i, i < n → l'.bias.getD i 0 = self.bias.getD i 0 - r * e.getD i 0) := by
  rcases Nat.eq_zero_or_pos n with h0 | hn
  · subst h0
    have hw : self.weights = [] := List.length_eq_zero.mp hd.2.2.1.1
    refine ⟨fun h => absurd h (lt_irrefl 0), ?_⟩
    intro l' g hb
    rw [Linear.backward_eq_none_of_no_rows self e r hw] at hb
    cases hb
  · have hcl := Linear.backward_eq self e r m n hd hx he hn
    refine ⟨fun _ => by rw [hcl]; rfl, ?_⟩
    intro l' g hb
    rw [hcl] at hb
    injection hb with hb
    injection hb with hl hg
    subst hl
    refine ⟨⟨table_isMatrix _ _ _, ?_⟩, ⟨by simp, ?_⟩⟩
    · intro i j hi hj
      show entry (table n m _) i j = _
      rw [entry_table _ _ _ _ _ hi hj]
      ring
    · intro i hi
      show ((List.range n).map _).getD i 0 = _
      rw [range_map_getD _ _ _ hi]
      ring

/-- The theorem `Linear.backward_gradient_descent` at `exampleLinear`, the error
`[1, 2]` and the learning rate `1/10`. -/
theorem Linear.backward_gradient_descent_witness :
    exampleLinear.HasDims 2 2 ∧ exampleLinear.input.length = 2 ∧
      (exampleLinear.backward [1, 2] (1 / 10)).isSome = true :=
  ⟨by decide, by decide,
    (Linear.backward_gradient_descent exampleLinear [1, 2] (1 / 10) 2 2
      (by decide) (by decide) (by decide)).1 (by decide)⟩

/-- C2. `Linear::forward` computes the affine map: on a dense layer with `n`
weight rows of length `m` and a bias of length `n`, and an input `x` of length
`m`, `forward(x)` returns a buffer `out` of length `n` with
`out[i] = dotProduct(weights[i], x) + bias[i] = (Σ_{j<m} weights[i][j] * x[j]) + bias[i]`,
and the state afterwards caches `x` as input (and `out` as output) with
all other members unchanged. -/
theorem Linear.forward_affine [Field α] (self : Linear α) (x : List α) (m n : Nat)
    (hd : self.HasDims m n) (hx : x.length = m) :
    ∃ out, self.forward x = some ({ self with input := x, output := out }, out) ∧
      out.length = n ∧
      ∀ i, i < n →
        (∃ w d, self.weights[i]? = some w ∧ dotProduct w x = some d ∧
          d = ∑ j in Finset.range m, entry self.weights i j * x.getD j 0 ∧
          out[i]? = some (d + self.bias.getD i 0)) := by
  refine ⟨_, Linear.forward_eq self x m n hd (le_of_eq hx.symm), by simp, ?_⟩
  intro i hi
  obtain ⟨row, hrow, hlen, hent⟩ := hd.2.2.1.getElem? i hi
  refine ⟨row, _, hrow, dotProduct_eq row x (by omega), ?_, ?_⟩
  · rw [hlen]
    exact Finset.sum_congr rfl (fun j _ => by rw [hent j])
  · rw [getElem?_range_map, if_pos hi, hlen]
    congr 2
    exact Finset.sum_congr rfl (fun j _ => by rw [hent j])

/-- The theorem `Linear.forward_affine` at `exampleLinear` and the input `[1, 1]`. -/
theorem Linear.forward_affine_witness :
    exampleLinear.HasDims 2 2 ∧
      ∃ out, exampleLinear.forward [1, 1]
          = some ({ exampleLinear with input := [1, 1], output := out }, out) ∧
        out.length = 2 :=
  ⟨by decide,
    (Linear.forward_affine exampleLinear [1, 1] 2 2 (by decide) (by decide)).imp
      (fun _ h => ⟨h.1, h.2.1⟩)⟩

/-- C3. `Linear::backward` returns the transpose-matrix-vector product against
the weights as they were when it was called: on a dense layer with `n ≥ 1`
weight rows of length `m`, a cached input of length `m` and an error `e` of
length `n`, the call returns a buffer `g` of length `m` with
`g[j] = Σ_{i<n} W_old[i][j] * e[i]` for every `j < m`. -/
theorem Linear.backward_input_gradient [Field α] (self : Linear α) (e : List α) (r : α)
    (m n : Nat) (hd : self.HasDims m n) (hx : self.input.length = m) (he : e.length = n)
    (hn : 1 ≤ n) :
    ∃ l' g, self.backward e r = some (l', g) ∧ g.length = m ∧
      ∀ j, j < m →
        g[j]? = some (∑ i in Finset.range n, entry self.weights i j * e.getD i 0) := by
  refine ⟨_, _, Linear.backward_eq self e r m n hd hx he hn, by simp, ?_⟩
  intro j hj
  rw [getElem?_range_map, if_pos hj]

/-- The theorem `Linear.backward_input_gradient` at `exampleLinear`, the error
`[1, 2]` and the learning rate `1/10`. -/
theorem Linear.backward_input_gradient_witness :
    exampleLinear.HasDims 2 2 ∧ 1 ≤ 2 ∧
      ∃ l' g, exampleLinear.backward [1, 2] (1 / 10) = some (l', g) ∧ g.length = 2 :=
  ⟨by decide, by decide,
    (Linear.backward_input_gradient exampleLinear [1, 2] (1 / 10) 2 2
      (by decide) (by decide) (by decide) (by decide)).imp
      (fun _ h => h.imp (fun _ h => ⟨h.1, h.2.1⟩))⟩

theorem Linear.new_eq (wdis bdis : Nat → α) (m n : Nat) :
    Linear.new wdis bdis (m : Int) (n : Int)
      = some { input_neurons := (m : Int), output_neurons := (n : Int),
               weights := table n m (fun i j => wdis (i * m + j)),
               bias := (List.range n).map bdis } := by
  have hw : uniformWeightInitializer wdis (n : Int) (m : Int)
      = some (table n m (fun i j => wdis (i * m + j))) := by
    unfold uniformWeightInitializer
    rw [if_neg (by omega)]
    simp only [Int.toNat_ofNat]
    rfl
  have hb : biasInit bdis (n : Int) = some ((List.range n).map bdis) := by
    unfold biasInit
    rw [if_neg (by omega)]
    simp only [Int.toNat_ofNat]
  unfold Linear.new
  rw [hw, hb]
  rfl

theorem Linear.new_hasDims (wdis bdis : Nat → α) (m n : Nat) :
    ∃ l, Linear.new wdis bdis (m : Int) (n : Int) = some l ∧ l.HasDims m n :=
  ⟨_, Linear.new_eq wdis bdis m n, rfl, rfl, table_isMatrix _ _ _, by simp⟩

theorem Linear.forward_hasDims [Field α] (self : Linear α) (x : List α) (m n : Nat)
    (hd : self.HasDims m n) (l1 : Linear α) (out : List α)
    (h : self.forward x = some (l1, out)) : l1.HasDims m n := by
  unfold Linear.forward at h
  simp only [Option.bind_eq_bind, Option.bind_eq_some, pure, Option.some.injEq,
    Prod.mk.injEq] at h
  obtain ⟨o, -, rfl, -⟩ := h
  exact hd

/-- C4, counterexample. The layer built by `Linear(2, 0)`: `forward` on a buffer
of length 2 returns the empty buffer, and the following `backward` on a
gradient of length 0 does not return (it reads `weights[0]` of an empty
matrix in `transpose`). -/
theorem Linear.shape_law_fails_without_outputs :
    Linear.new (fun _ => (0 : ℚ)) (fun _ => (0 : ℚ)) 2 0 = some emptyLinear ∧
      emptyLinear.forward [1, 1] = some ({ emptyLinear with input := [1, 1] }, []) ∧
      ({ emptyLinear with input := [1, 1] } : Linear ℚ).backward [] (1 / 10) = none :=
  ⟨rfl, rfl, rfl⟩

/-- C4, amended. Shape law: `Linear(m, n)` builds a layer with the
dimension invariant for all natural `m`, `n`; on every such layer `forward` on a
buffer of length `m` returns a buffer of length `n` (also for `n = 0`), and,
when `n ≥ 1`, a following `backward` on a gradient of length `n` returns a
buffer of length `m` (also for `m = 0`). -/
theorem Linear.shape_law [Field α] (self : Linear α) (x : List α) (m n : Nat)
    (hd : self.HasDims m n) (hx : x.length = m) :
    (∀ wdis bdis : Nat → α,
      ∃ l, Linear.new wdis bdis (m : Int) (n : Int) = some l ∧ l.HasDims m n) ∧
    ∃ l1 out, self.forward x = some (l1, out) ∧ out.length = n ∧
      (1 ≤ n → ∀ (g : List α) (r : α), g.length = n →
        ∃ l2 gin, l1.backward g r = some (l2, gin) ∧ gin.length = m) := by
  refine ⟨fun wdis bdis => Linear.new_hasDims wdis bdis m n, ?_⟩
  have hf := Linear.forward_eq self x m n hd (le_of_eq hx.symm)
  refine ⟨_, _, hf, by simp, ?_⟩
  intro hn g r hg
  have hd1 := Linear.forward_hasDims self x m n hd _ _ hf
  exact ⟨_, _, Linear.backward_eq _ g r m n hd1 hx hg hn, by simp⟩

/-- The theorem `Linear.shape_law` at `exampleLinear` and the input `[1, 1]`. -/
theorem Linear.shape_law_witness :
    exampleLinear.HasDims 2 2 ∧
      ∃ l1 out, exampleLinear.forward [1, 1] = some (l1, out) ∧ out.length = 2 ∧
        ∃ l2 gin, l1.backward [1, 2] (1 / 10) = some (l2, gin) ∧ gin.length = 2 :=
  ⟨by decide,
    (Linear.shape_law exampleLinear [1, 1] 2 2 (by decide) (by decide)).2.imp
      (fun _ h => h.imp (fun _ h => ⟨h.1, h.2.1, h.2.2 (by decide) [1, 2] (1 / 10) rfl⟩))⟩

/-! ## The activation layers -/

theorem gradInput_map [Field α] (f : α → α) (g cached : List α)
    (hg : g.length = cached.length) :
    gradInput g (cached.map f) = some (List.zipWith (fun gi xi => gi * f xi) g cached) := by
  rw [gradInput_eq g (cached.map f) (by simp [hg])]
  congr 1
  apply List.ext_getElem?
  intro i
  rw [getElem?_range_map, List.getElem?_zipWith, List.length_map]
  by_cases hi : i < cached.length
  · have hi2 : i < g.length := hg ▸ hi
    simp [hi, List.getD_eq_getElem?_getD, List.getElem?_eq_getElem hi,
      List.getElem?_eq_getElem hi2]
  · have h1 : cached.length ≤ i := by omega
    have h2 : g.length ≤ i := by omega
    simp [hi, List.getElem?_eq_none h1, List.getElem?_eq_none h2]

/-- C5. Activation layer contract. For Sigmoid, Relu, LeakyRelu (with
`alpha = 0.01`) and Tanh with elementwise function `f` and derivative `f'`:
`forward(x)` returns the buffer `x.map f`, of the length of `x`, and leaves the
layer with `x` as cached input and that buffer as cached output; and on a layer
whose cached input has the length of `g`, `backward(g, learning_rate)` returns
the buffer with entries `g[i] * f'(cached_input[i])`, in which `learning_rate`
does not occur, and the unchanged layer. -/
theorem activation_layer_contract [LinearOrderedField α] (exp : α → α)
    (cached out x g : List α) (learning_rate : α) (hg : g.length = cached.length) :
    ((∀ s : Sigmoid α,
        s.forward exp x
          = ({ input := x, output := x.map (sigmoid exp) }, x.map (sigmoid exp))) ∧
      (x.map (sigmoid exp)).length = x.length ∧
      ({ input := cached, output := out } : Sigmoid α).backward exp g learning_rate
        = some ({ input := cached, output := out },
            List.zipWith (fun gi xi => gi * sigmoidDerivative exp xi) g cached)) ∧
    ((∀ s : Relu α,
        s.forward x = ({ input := x, output := x.map relu }, x.map relu)) ∧
      (x.map (relu : α → α)).length = x.length ∧
      ({ input := cached, output := out } : Relu α).backward g learning_rate
        = some ({ input := cached, output := out },
            List.zipWith (fun gi xi => gi * reluDerivative xi) g cached)) ∧
    ((LeakyRelu.new : LeakyRelu α).alpha = 1 / 100 ∧
      (∀ s : LeakyRelu α, s.alpha = 1 / 100 →
        s.forward x
          = ({ input := x, output := x.map (fun v => leakyRelu v (1 / 100)),
               alpha := 1 / 100 },
             x.map (fun v => leakyRelu v (1 / 100)))) ∧
      (x.map (fun v : α => leakyRelu v (1 / 100))).length = x.length ∧
      ({ input := cached, output := out, alpha := 1 / 100 } : LeakyRelu α).backward g
          learning_rate
        = some ({ input := cached, output := out, alpha := 1 / 100 },
            List.zipWith (fun gi xi => gi * leakyReluDerivative xi (1 / 100)) g cached)) ∧
    ((∀ s : Tanh α,
        s.forward exp x
          = ({ input := x, output := x.map (tanh exp) }, x.map (tanh exp))) ∧
      (x.map (tanh exp)).length = x.length ∧
      ({ input := cached, output := out } : Tanh α).backward exp g learning_rate
        = some ({ input := cached, output := out },
            List.zipWith (fun gi xi => gi * tanhDerivative exp xi) g cached)) := by
  refine ⟨⟨fun s => rfl, List.length_map _ _, ?_⟩, ⟨fun s => rfl, List.length_map _ _, ?_⟩,
    ⟨rfl, ?_, List.length_map _ _, ?_⟩, ⟨fun s => rfl, List.length_map _ _, ?_⟩⟩
  · simp only [Sigmoid.backward, vectSigmoidDerivative, gradInput_map _ g cached hg,
      Option.bind_eq_bind, Option.some_bind, pure]
  · simp only [Relu.backward, vectReluDerivative, gradInput_map _ g cached hg,
      Option.bind_eq_bind, Option.some_bind, pure]
  · intro s hs
    cases s
    simp only at hs
    subst hs
    rfl
  · simp only [LeakyRelu.backward, vectLeakyReluDerivative, gradInput_map _ g cached hg,
      Option.bind_eq_bind, Option.some_bind, pure]
  · simp only [Tanh.backward, vectTanhDerivative, gradInput_map _ g cached hg,
      Option.bind_eq_bind, Option.some_bind, pure]

/-- The theorem `activation_layer_contract` over `ℚ` at the cached input
`[0, -1]` and the gradient `[2, 3]`. -/
theorem activation_layer_contract_witness :
    ([2, 3] : List ℚ).length = ([0, -1] : List ℚ).length ∧
      ({ input := [0, -1], output := [] } : Relu ℚ).backward [2, 3] 5
        = some ({ input := [0, -1], output := [] },
            List.zipWith (fun gi xi => gi * reluDerivative xi) [2, 3] [0, -1]) :=
  ⟨rfl, (activation_layer_contract (fun v : ℚ => 1 + v) [0, -1] [] [7] [2, 3] 5 rfl).2.1.2.2⟩

/-! ## The pipeline -/

theorem forward_loop_eq [LinearOrderedField α] (exp : α → α)
    (step : List (Layer α) × List α → Layer α → Option (List (Layer α) × List α))
    (hstep : ∀ acc layer,
      step acc layer = (layer.forward exp acc.2).map (fun r => (acc.1 ++ [r.1], r.2)))
    (ls : List (Layer α)) (acc : List (Layer α)) (data : List α) :
    ls.foldlM step (acc, data)
      = (forwardAll exp ls data).map (fun q => (acc ++ q.1, q.2)) := by
  induction ls generalizing acc data with
  | nil => simp [forwardAll]
  | cons l ls ih =>
    rw [List.foldlM_cons, forwardAll, hstep]
    cases hf : l.forward exp data with
    | none => rfl
    | some r =>
      obtain ⟨l', d'⟩ := r
      simp only [Option.map_some', Option.bind_eq_bind, Option.some_bind]
      rw [ih]
      cases forwardAll exp ls d' with
      | none => rfl
      | some q => simp

theorem NN.forward_propagation_eq [LinearOrderedField α] (exp : α → α) (nn : NN α)
    (x : List α) :
    nn.forward_propagation exp x
      = (forwardAll exp nn.layers x).map (fun q => ({ layers := q.1 }, q.2)) := by
  unfold NN.forward_propagation
  rw [forward_loop_eq exp _ (fun acc layer => by
    cases h : layer.forward exp acc.2 with
    | none => simp [h]
    | some r => simp [h])]
  cases forwardAll exp nn.layers x with
  | none => rfl
  | some q => simp

theorem forwardAll_append [LinearOrderedField α] (exp : α → α) (ls ks : List (Layer α))
    (x : List α) :
    forwardAll exp (ls ++ ks) x
      = (forwardAll exp ls x).bind (fun q =>
          (forwardAll exp ks q.2).map (fun r => (q.1 ++ r.1, r.2))) := by
  induction ls generalizing x with
  | nil =>
    simp only [List.nil_append, forwardAll, Option.some_bind]
    cases forwardAll exp ks x <;> rfl
  | cons l ls ih =>
    rw [List.cons_append, forwardAll, forwardAll]
    cases l.forward exp x with
    | none => rfl
    | some r =>
      simp only [Option.some_bind]
      rw [ih]
      cases forwardAll exp ls r.2 with
      | none => rfl
      | some q =>
        simp only [Option.some_bind, Option.map_some']
        cases forwardAll exp ks q.2 <;> rfl

theorem back_loop_eq [LinearOrderedField α] (exp : α → α) (ls : List (Layer α))
    (e : List α) (r : α) : NN.back_loop exp ls e r = backwardAll exp ls e r := by
  induction ls with
  | nil => rfl
  | cons l ls ih =>
    unfold NN.back_loop at ih ⊢
    rw [List.reverse_cons, List.foldlM_append, ih, backwardAll]
    cases backwardAll exp ls e r with
    | none => rfl
    | some q =>
      simp only [Option.bind_eq_bind, Option.some_bind, List.foldlM_cons, List.foldlM_nil]
      cases l.backward exp q.2 r with
      | none => rfl
      | some p => rfl

theorem backwardAll_append [LinearOrderedField α] (exp : α → α) (ls ks : List (Layer α))
    (e : List α) (r : α) :
    backwardAll exp (ls ++ ks) e r
      = (backwardAll exp ks e r).bind (fun p =>
          (backwardAll exp ls p.2 r).map (fun q => (q.1 ++ p.1, q.2))) := by
  induction ls with
  | nil =>
    simp only [List.nil_append, backwardAll]
    cases backwardAll exp ks e r <;> rfl
  | cons l ls ih =>
    rw [List.cons_append, backwardAll, ih]
    simp only [backwardAll]
    cases backwardAll exp ks e r with
    | none => rfl
    | some p =>
      simp only [Option.some_bind]
      cases backwardAll exp ls p.2 r with
      | none => rfl
      | some q =>
        simp only [Option.some_bind, Option.map_some']
        cases l.backward exp q.2 r <;> rfl

theorem NN.back_propagation_eq [LinearOrderedField α] (exp : α → α) (nn : NN α)
    (e : List α) (r : α) :
    nn.back_propagation exp e r
      = (backwardAll exp nn.layers e r).map (fun q => { layers := q.1 }) := by
  unfold NN.back_propagation
  rw [back_loop_eq]
  cases backwardAll exp nn.layers e r <;> rfl

theorem Layer.backward_activation [LinearOrderedField α] (exp : α → α) (l l' : Layer α)
    (g g' : List α) (r : α) (ha : l.isActivation = true)
    (h : l.backward exp g r = some (l', g')) : l' = l := by
  cases l with
  | Sigmoid s =>
    simp only [Layer.backward, Sigmoid.backward, Option.bind_eq_bind, pure] at h
    cases hgi : gradInput g (vectSigmoidDerivative exp s.input) with
    | none => rw [hgi] at h; cases h
    | some v => rw [hgi] at h; cases h; rfl
  | Relu s =>
    simp only [Layer.backward, Relu.backward, Option.bind_eq_bind, pure] at h
    cases hgi : gradInput g (vectReluDerivative s.input) with
    | none => rw [hgi] at h; cases h
    | some v => rw [hgi] at h; cases h; rfl
  | LeakyRelu s =>
    simp only [Layer.backward, LeakyRelu.backward, Option.bind_eq_bind, pure] at h
    cases hgi : gradInput g (vectLeakyReluDerivative s.input s.alpha) with
    | none => rw [hgi] at h; cases h
    | some v => rw [hgi] at h; cases h; rfl
  | Tanh s =>
    simp only [Layer.backward, Tanh.backward, Option.bind_eq_bind, pure] at h
    cases hgi : gradInput g (vectTanhDerivative exp s.input) with
    | none => rw [hgi] at h; cases h
    | some v => rw [hgi] at h; cases h; rfl
  | Linear s => cases ha

theorem Linear.forward_state [Field α] (self l1 : Linear α) (x out : List α)
    (h : self.forward x = some (l1, out)) :
    l1 = { self with input := x, output := out } := by
  unfold Linear.forward at h
  simp only [Option.bind_eq_bind, Option.bind_eq_some, pure, Option.some.injEq,
    Prod.mk.injEq] at h
  obtain ⟨o, -, rfl, rfl⟩ := h
  rfl

theorem Layer.forward_eraseCache [LinearOrderedField α] (exp : α → α) (l l' : Layer α)
    (x y : List α) (h : l.forward exp x = some (l', y)) : l'.eraseCache = l.eraseCache := by
  cases l with
  | Sigmoid s => simp only [Layer.forward, Option.some.injEq, Prod.mk.injEq] at h
                 obtain ⟨rfl, -⟩ := h; rfl
  | Relu s => simp only [Layer.forward, Option.some.injEq, Prod.mk.injEq] at h
              obtain ⟨rfl, -⟩ := h; rfl
  | LeakyRelu s => simp only [Layer.forward, Option.some.injEq, Prod.mk.injEq] at h
                   obtain ⟨rfl, -⟩ := h; rfl
  | Tanh s => simp only [Layer.forward, Option.some.injEq, Prod.mk.injEq] at h
              obtain ⟨rfl, -⟩ := h; rfl
  | Linear s =>
    simp only [Layer.forward, Option.map_eq_some', Prod.mk.injEq] at h
    obtain ⟨⟨l1, out⟩, hf, rfl, -⟩ := h
    rw [Linear.forward_state s l1 x out hf]
    rfl

theorem forwardAll_eraseCache [LinearOrderedField α] (exp : α → α) (ls ls' : List (Layer α))
    (x y : List α) (h : forwardAll exp ls x = some (ls', y)) :
    ls'.map Layer.eraseCache = ls.map Layer.eraseCache := by
  induction ls generalizing ls' x y with
  | nil =>
    simp only [forwardAll, Option.some.injEq, Prod.mk.injEq] at h
    obtain ⟨rfl, -⟩ := h
    rfl
  | cons l ls ih =>
    simp only [forwardAll, Option.bind_eq_some, Option.map_eq_some', Prod.mk.injEq] at h
    obtain ⟨⟨l', d⟩, hl, ⟨ks, z⟩, hks, rfl, -⟩ := h
    simp only [List.map_cons, ih ks d z hks, Layer.forward_eraseCache exp l l' x d hl]

theorem Layer.weightsAndBias_eraseCache (l : Layer α) :
    l.eraseCache.weightsAndBias = l.weightsAndBias := by
  cases l <;> rfl

theorem map_weightsAndBias_of_eraseCache (ls ls' : List (Layer α))
    (h : ls'.map Layer.eraseCache = ls.map Layer.eraseCache) :
    ls'.map Layer.weightsAndBias = ls.map Layer.weightsAndBias := by
  have h2 := congrArg (List.map Layer.weightsAndBias) h
  simp only [List.map_map] at h2
  have hf : (Layer.weightsAndBias ∘ Layer.eraseCache : Layer α → _) = Layer.weightsAndBias :=
    funext Layer.weightsAndBias_eraseCache
  rw [hf] at h2
  exact h2

theorem NN.forward_propagation_eraseCache [LinearOrderedField α] (exp : α → α)
    (nn nn' : NN α) (x out : List α) (h : nn.forward_propagation exp x = some (nn', out)) :
    nn'.layers.map Layer.eraseCache = nn.layers.map Layer.eraseCache := by
  rw [NN.forward_propagation_eq] at h
  simp only [Option.map_eq_some', Prod.mk.injEq] at h
  obtain ⟨⟨ks, z⟩, hks, rfl, -⟩ := h
  exact forwardAll_eraseCache exp nn.layers ks x z hks

/-- C6. `NN::forward_propagation` threads the input through the layers in
insertion order: the empty pipeline returns `x` unchanged; on `l :: ls` the
first layer is run once on `x` and the remaining pipeline on its output; the
pipeline extended by `add(l)` runs `l` once on the output of the pipeline
before it; and `predict` is the same function (same value, same state). -/
theorem NN.forward_propagation_threads [LinearOrderedField α] (exp : α → α) :
    (∀ x : List α,
      NN.forward_propagation exp { layers := [] } x = some ({ layers := [] }, x)) ∧
    (∀ (l : Layer α) (ls : List (Layer α)) (x : List α),
      NN.forward_propagation exp { layers := l :: ls } x
        = (l.forward exp x).bind (fun r =>
            (NN.forward_propagation exp { layers := ls } r.2).map
              (fun q => ({ layers := r.1 :: q.1.layers }, q.2)))) ∧
    (∀ (nn : NN α) (l : Layer α) (x : List α),
      (nn.add l).forward_propagation exp x
        = (nn.forward_propagation exp x).bind (fun q =>
            (l.forward exp q.2).map (fun r => (q.1.add r.1, r.2)))) ∧
    (∀ (nn : NN α) (x : List α), nn.predict exp x = nn.forward_propagation exp x) := by
  refine ⟨fun x => rfl, ?_, ?_, fun nn x => rfl⟩
  · intro l ls x
    simp only [NN.forward_propagation_eq, forwardAll]
    cases l.forward exp x with
    | none => rfl
    | some r =>
      simp only [Option.some_bind]
      cases forwardAll exp ls r.2 <;> rfl
  · intro nn l x
    simp only [NN.forward_propagation_eq, NN.add, forwardAll_append, forwardAll]
    cases forwardAll exp nn.layers x with
    | none => rfl
    | some q =>
      simp only [Option.some_bind, Option.map_some']
      cases l.forward exp q.2 <;> rfl

theorem backwardAll_split [LinearOrderedField α] (exp : α → α) (pre post : List (Layer α))
    (l : Layer α) (e gfinal : List α) (r : α) (layers' : List (Layer α))
    (h : backwardAll exp (pre ++ l :: post) e r = some (layers', gfinal)) :
    ∃ post' g l' g' pre',
      backwardAll exp post e r = some (post', g) ∧
      l.backward exp g r = some (l', g') ∧
      backwardAll exp pre g' r = some (pre', gfinal) ∧
      layers' = pre' ++ l' :: post' := by
  rw [backwardAll_append, backwardAll] at h
  simp only [Option.bind_eq_some, Option.map_eq_some', Prod.mk.injEq] at h
  obtain ⟨a, ⟨⟨post', g⟩, hpost, ⟨l', g'⟩, hl, rfl⟩, ⟨pre', gf⟩, hpre, rfl, rfl⟩ := h
  exact ⟨post', g, l', g', pre', hpost, hl, hpre, rfl⟩

/-- C7. `NN::back_propagation` threads the error through the layers in reverse
insertion order: on `ls ++ [l]` the last layer's `backward` is called first,
with `e` and `r`, and the layers before it are run with the gradient it
returns and the same `r`; a layer at any position is called with the
gradient returned by the layers after it, and its state after the pass is the
one its own `backward` call returned (`Linear::backward` for a dense layer);
the final gradient is dropped; and an activation layer's state is
unchanged. -/
theorem NN.back_propagation_threads [LinearOrderedField α] (exp : α → α) :
    (∀ (e : List α) (r : α), NN.back_loop exp [] e r = some ([], e)) ∧
    (∀ (ls : List (Layer α)) (l : Layer α) (e : List α) (r : α),
      NN.back_loop exp (ls ++ [l]) e r
        = (l.backward exp e r).bind (fun p =>
            (NN.back_loop exp ls p.2 r).map (fun q => (q.1 ++ [p.1], q.2)))) ∧
    (∀ (pre post : List (Layer α)) (l : Layer α) (e gfinal : List α) (r : α)
        (layers' : List (Layer α)),
      NN.back_loop exp (pre ++ l :: post) e r = some (layers', gfinal) →
      ∃ post' g l' g' pre',
        NN.back_loop exp post e r = some (post', g) ∧
        l.backward exp g r = some (l', g') ∧
        NN.back_loop exp pre g' r = some (pre', gfinal) ∧
        layers' = pre' ++ l' :: post') ∧
    (∀ (nn : NN α) (e : List α) (r : α),
      nn.back_propagation exp e r
        = (NN.back_loop exp nn.layers e r).map (fun q => { layers := q.1 })) ∧
    (∀ (d : Linear α) (g : List α) (r : α),
      (Layer.Linear d).backward exp g r
        = (d.backward g r).map (fun p => (Layer.Linear p.1, p.2))) ∧
    (∀ (l l' : Layer α) (g g' : List α) (r : α),
      l.isActivation = true → l.backward exp g r = some (l', g') → l' = l) := by
  refine ⟨fun e r => rfl, ?_, ?_, ?_, fun d g r => rfl,
    fun l l' g g' r ha h => Layer.backward_activation exp l l' g g' r ha h⟩
  · intro ls l e r
    simp only [back_loop_eq, backwardAll_append, backwardAll, Option.some_bind]
    cases l.backward exp e r <;> rfl
  · intro pre post l e gfinal r layers' h
    simp only [back_loop_eq] at h ⊢
    exact backwardAll_split exp pre post l e gfinal r layers' h
  · intro nn e r
    rw [NN.back_propagation_eq, back_loop_eq]

/-- C9, counterexample. On the pipeline with the single layer `Relu` and nothing
cached, `predict([1])` returns `[1]` and leaves the layer with cached input
`[1]` and cached output `[1]`: the state after the call differs from the state
before it. -/
theorem NN.predict_overwrites_caches :
    reluPipeline.predict (fun v => v) [1]
        = some ({ layers := [.Relu { input := [1], output := [1] }] }, [1]) ∧
      ({ layers := [.Relu { input := [1], output := [1] }] } : NN ℚ) ≠ reluPipeline := by
  refine ⟨?_, by decide⟩
  simp [reluPipeline, NN.predict, NN.forward_propagation, Layer.forward, Relu.forward,
    vectRelu, relu]

/-- C9, amended. `predict` changes nothing but caches: when `predict(input)`
returns, every layer of the pipeline has the variant and the parameters
(`alpha`; sizes, `weights`, `bias`) it had before the call; only the cached
`input` and `output` buffers may differ. -/
theorem NN.predict_changes_only_caches [LinearOrderedField α] (exp : α → α)
    (nn nn' : NN α) (x out : List α) (h : nn.predict exp x = some (nn', out)) :
    nn'.layers.map Layer.eraseCache = nn.layers.map Layer.eraseCache :=
  NN.forward_propagation_eraseCache exp nn nn' x out h

/-- The theorem `NN.predict_changes_only_caches` at `reluPipeline` and the input
`[1]`. -/
theorem NN.predict_changes_only_caches_witness :
    reluPipeline.predict (fun v => v) [1]
        = some ({ layers := [.Relu { input := [1], output := [1] }] }, [1]) ∧
      ([.Relu { input := [1], output := [1] }] : List (Layer ℚ)).map Layer.eraseCache
        = reluPipeline.layers.map Layer.eraseCache :=
  have h : reluPipeline.predict (fun v => v) [1]
      = some ({ layers := [.Relu { input := [1], output := [1] }] }, [1]) := by
    simp [reluPipeline, NN.predict, NN.forward_propagation, Layer.forward, Relu.forward,
      vectRelu, relu]
  ⟨h, NN.predict_changes_only_caches (fun v => v) reluPipeline _ [1] [1] h⟩

/-- C10. Only `backward` on a trainable layer mutates parameters: when
`forward_propagation` (or `predict`, the same call) returns, the `weights` and
`bias` of the dense layer at every position are those from before the call,
and no activation layer has gained parameters; and `backward` on an activation
layer returns that layer unchanged, no other layer being touched by the
call. -/
theorem NN.only_backward_on_dense_mutates_parameters [LinearOrderedField α] (exp : α → α)
    (nn nn' : NN α) (x out : List α) (l l' : Layer α) (g g' : List α) (r : α)
    (h : nn.forward_propagation exp x = some (nn', out))
    (ha : l.isActivation = true) (hb : l.backward exp g r = some (l', g')) :
    nn'.layers.map Layer.weightsAndBias = nn.layers.map Layer.weightsAndBias ∧
      nn.predict exp x = some (nn', out) ∧ l' = l :=
  ⟨map_weightsAndBias_of_eraseCache _ _ (NN.forward_propagation_eraseCache exp nn nn' x out h),
    h, Layer.backward_activation exp l l' g g' r ha hb⟩

/-- The theorem `NN.only_backward_on_dense_mutates_parameters` at `reluPipeline`
with the input `[1]`, and at `reluLayer` with the gradient `[2, 3]`. -/
theorem NN.only_backward_on_dense_mutates_parameters_witness :
    reluPipeline.forward_propagation (fun v => v) [1]
        = some ({ layers := [.Relu { input := [1], output := [1] }] }, [1]) ∧
      reluLayer.isActivation = true ∧
      reluLayer.backward (fun v => v) [2, 3] 1 = some (reluLayer, [2, 0]) ∧
      ([.Relu { input := [1], output := [1] }] : List (Layer ℚ)).map Layer.weightsAndBias
        = reluPipeline.layers.map Layer.weightsAndBias :=
  have h1 : reluPipeline.forward_propagation (fun v => v) [1]
      = some ({ layers := [.Relu { input := [1], output := [1] }] }, [1]) := by
    simp [reluPipeline, NN.forward_propagation, Layer.forward, Relu.forward, vectRelu, relu]
  have h2 : reluLayer.backward (fun v => v) [2, 3] 1 = some (reluLayer, [2, 0]) := by
    simp [reluLayer, Layer.backward, Relu.backward, gradInput, vectReluDerivative,
      reluDerivative, List.range, List.range.loop]
  ⟨h1, rfl, h2,
    (NN.only_backward_on_dense_mutates_parameters (fun v : ℚ => v) reluPipeline _ [1] [1]
      reluLayer reluLayer [2, 3] [2, 0] 1 h1 rfl h2).1⟩

/-! ## The training loop -/

theorem foldlM_range_eq_foldlM {σ β : Type} (xs : List β) (step : σ → Nat → Option σ)
    (f : σ → β → Option σ)
    (h : ∀ acc i, (hi : i < xs.length) → step acc i = f acc (xs.get ⟨i, hi⟩)) (init : σ) :
    (List.range xs.length).foldlM step init = xs.foldlM f init := by
  induction xs using List.reverseRecOn with
  | nil => rfl
  | append_singleton ys y ih =>
    rw [List.length_append, List.length_singleton, List.range_succ, List.foldlM_append,
      List.foldlM_append]
    have h1 : ∀ acc i, (hi : i < ys.length) → step acc i = f acc (ys.get ⟨i, hi⟩) := by
      intro acc i hi
      have := h acc i (by rw [List.length_append]; omega)
      rw [this]
      congr 1
      simp [List.getElem_append_left hi]
    rw [ih h1]
    congr 1
    funext acc
    have := h acc ys.length (by simp)
    simp only [List.foldlM_cons, List.foldlM_nil, this]
    congr 2
    simp

theorem fit_inner_step [LinearOrderedField α] (exp log : α → α) (learning_rate : α)
    (X Y : List (List α)) (hY : X.length ≤ Y.length) (acc : NN α × α) (i : Nat)
    (hi : i < (X.zip Y).length) :
    (do
      let x ← X[i]?
      let (nn, out) ← acc.1.forward_propagation exp x
      let y ← Y[i]?
      let loss ← BCELoss log y out
      let total_loss := acc.2 + loss
      let loss_derivative ← BCELossDerivative y out
      let nn ← nn.back_propagation exp loss_derivative learning_rate
      pure (nn, total_loss))
    = (acc.1.forward_propagation exp ((X.zip Y).get ⟨i, hi⟩).1).bind (fun r =>
        (BCELoss log ((X.zip Y).get ⟨i, hi⟩).2 r.2).bind (fun loss =>
          (BCELossDerivative ((X.zip Y).get ⟨i, hi⟩).2 r.2).bind (fun d =>
            (r.1.back_propagation exp d learning_rate).map (fun nn =>
              (nn, acc.2 + loss))))) := by
  have hlen : (X.zip Y).length = X.length := by simp [List.length_zip, hY]
  have hiX : i < X.length := hlen ▸ hi
  have hiY : i < Y.length := lt_of_lt_of_le hiX hY
  have hz : (X.zip Y).get ⟨i, hi⟩ = (X[i], Y[i]) := by simp
  rw [hz, List.getElem?_eq_getElem hiX, List.getElem?_eq_getElem hiY]
  simp only [Option.bind_eq_bind, Option.some_bind]
  cases acc.1.forward_propagation exp X[i] with
  | none => rfl
  | some r =>
    obtain ⟨nn, out⟩ := r
    simp only [Option.some_bind]
    cases BCELoss log Y[i] out with
    | none => rfl
    | some loss =>
      simp only [Option.some_bind]
      cases BCELossDerivative Y[i] out with
      | none => rfl
      | some d =>
        simp only [Option.some_bind]
        cases nn.back_propagation exp d learning_rate <;> rfl

theorem fit_epoch_loop [LinearOrderedField α] (exp log : α → α) (learning_rate : α)
    (f : NN α × α → List α × List α → Option (NN α × α))
    (hf : ∀ acc xy, f acc xy
      = (acc.1.forward_propagation exp xy.1).bind (fun r =>
          (BCELoss log xy.2 r.2).bind (fun loss =>
            (BCELossDerivative xy.2 r.2).bind (fun d =>
              (r.1.back_propagation exp d learning_rate).map (fun nn =>
                (nn, acc.2 + loss))))))
    (samples : List (List α × List α)) (s : NN α) (t : α) :
    samples.foldlM f (s, t)
      = (samples.foldlM (fitStep exp learning_rate) s).bind (fun s' =>
          (epochLoss exp log learning_rate s samples).map (fun l => (s', t + l))) := by
  induction samples generalizing s t with
  | nil => simp [epochLoss]
  | cons xy rest ih =>
    rw [List.foldlM_cons, List.foldlM_cons, hf, epochLoss, fitStep]
    cases hfw : s.forward_propagation exp xy.1 with
    | none => rfl
    | some r =>
      simp only [Option.bind_eq_bind, Option.some_bind]
      cases hd : BCELossDerivative xy.2 r.2 with
      | none =>
        simp only [Option.none_bind, Option.bind_none]
      | some d =>
        simp only [Option.some_bind]
        cases hb : r.1.back_propagation exp d learning_rate with
        | none =>
          simp only [Option.none_bind, Option.map_none', Option.bind_none]
        | some nn =>
          simp only [Option.some_bind, Option.map_some']
          cases hl : BCELoss log xy.2 r.2 with
          | none =>
            simp only [Option.none_bind]
            cases rest.foldlM (fitStep exp learning_rate) nn <;> rfl
          | some loss =>
            simp only [Option.some_bind]
            rw [ih]
            cases rest.foldlM (fitStep exp learning_rate) nn with
            | none => rfl
            | some s' =>
              simp only [Option.some_bind]
              cases epochLoss exp log learning_rate nn rest with
              | none => rfl
              | some l => simp [add_assoc]

theorem fit_outer_loop [LinearOrderedField α] (exp log : α → α) (learning_rate : α)
    (samples : List (List α × List α))
    (g : NN α × List (Nat × α) → Nat → Option (NN α × List (Nat × α)))
    (hg : ∀ st epoch, g st epoch
      = (samples.foldlM (fitStep exp learning_rate) st.1).bind (fun s' =>
          (epochLoss exp log learning_rate st.1 samples).map (fun l =>
            (s', st.2 ++ [(epoch, l)]))))
    (s : NN α) (k : Nat) :
    (List.range k).foldlM g (s, [])
      = (stateAfterEpochs exp learning_rate samples s k).bind (fun s' =>
          (reportedLosses exp log learning_rate samples s k).map (fun ls => (s', ls))) := by
  induction k with
  | zero => rfl
  | succ k ih =>
    rw [List.range_succ, List.foldlM_append, ih, stateAfterEpochs, reportedLosses]
    cases stateAfterEpochs exp learning_rate samples s k with
    | none =>
      simp only [Option.bind_eq_bind, Option.none_bind, Option.bind_none]
    | some sk =>
      simp only [Option.bind_eq_bind, Option.some_bind]
      cases reportedLosses exp log learning_rate samples s k with
      | none =>
        simp only [Option.map_none', Option.none_bind, Option.bind_none]
      | some ls =>
        simp only [Option.map_some', Option.some_bind, List.foldlM_cons, List.foldlM_nil, hg,
          Option.bind_eq_bind]
        cases samples.foldlM (fitStep exp learning_rate) sk with
        | none => rfl
        | some s' =>
          simp only [Option.some_bind]
          cases epochLoss exp log learning_rate sk samples <;> rfl

/-- C8. `NN::fit` is strict online gradient descent in deterministic order. With
at least as many labels as samples, `fit(X, Y, epochs, learning_rate)` returns
exactly when the pipeline state after `epochs` passes of `step` over the
samples `(X[0], Y[0]), (X[1], Y[1]), ...` in index order and every reported
loss exist, and then its state is that state and the line of each epoch `e`
carries the sum over the samples of `BCELoss(Y[i], out_i)`, `out_i` being the
prediction computed before sample `i`'s update in that epoch. -/
theorem NN.fit_online_gradient_descent [LinearOrderedField α] (exp log : α → α) (nn : NN α)
    (X Y : List (List α)) (epochs : Int) (learning_rate : α) (hY : X.length ≤ Y.length) :
    nn.fit exp log X Y epochs learning_rate
      = (stateAfterEpochs exp learning_rate (X.zip Y) nn epochs.toNat).bind (fun s' =>
          (reportedLosses exp log learning_rate (X.zip Y) nn epochs.toNat).map
            (fun ls => (s', ls))) := by
  have hlen : (X.zip Y).length = X.length := by simp [List.length_zip, hY]
  unfold NN.fit
  apply fit_outer_loop exp log learning_rate (X.zip Y)
  intro st epoch
  rw [← hlen]
  rw [foldlM_range_eq_foldlM (X.zip Y) _
    (fun acc xy => (acc.1.forward_propagation exp xy.1).bind (fun r =>
          (BCELoss log xy.2 r.2).bind (fun loss =>
            (BCELossDerivative xy.2 r.2).bind (fun d =>
              (r.1.back_propagation exp d learning_rate).map (fun nn =>
                (nn, acc.2 + loss))))))
    (fun acc i hi => fit_inner_step exp log learning_rate X Y hY acc i hi)]
  rw [fit_epoch_loop exp log learning_rate _ (fun acc xy => rfl)]
  cases List.foldlM (fitStep exp learning_rate) st.1 (X.zip Y) with
  | none => rfl
  | some s' =>
    simp only [Option.bind_eq_bind, Option.some_bind]
    cases epochLoss exp log learning_rate st.1 (X.zip Y) with
    | none => rfl
    | some l => simp

/-- The theorem `NN.fit_online_gradient_descent` at `examplePipeline`, one
sample, one epoch and the learning rate `1/10`, with rational stand-ins for
`exp` and `log`. -/
theorem NN.fit_online_gradient_descent_witness :
    ([[0, 1]] : List (List ℚ)).length ≤ ([[1]] : List (List ℚ)).length ∧
      examplePipeline.fit (fun v => 1 + v) (fun v => v - 1) [[0, 1]] [[1]] 1 (1 / 10)
        = (stateAfterEpochs (fun v => 1 + v) (1 / 10) ([[0, 1]].zip [[1]]) examplePipeline
            (1 : Int).toNat).bind (fun s' =>
          (reportedLosses (fun v => 1 + v) (fun v => v - 1) (1 / 10) ([[0, 1]].zip [[1]])
            examplePipeline (1 : Int).toNat).map (fun ls => (s', ls))) :=
  ⟨by decide,
    NN.fit_online_gradient_descent (fun v => 1 + v) (fun v => v - 1) examplePipeline
      [[0, 1]] [[1]] 1 (1 / 10) (by decide)⟩

/-! ## Repeated inference -/

theorem Layer.forward_eraseCache_arg [LinearOrderedField α] (exp : α → α) (l : Layer α)
    (x : List α) : l.eraseCache.forward exp x = l.forward exp x := by
  cases l <;> rfl

theorem Layer.forward_congr [LinearOrderedField α] (exp : α → α) (l k : Layer α)
    (x : List α) (h : l.eraseCache = k.eraseCache) : l.forward exp x = k.forward exp x := by
  rw [← Layer.forward_eraseCache_arg exp l, h, Layer.forward_eraseCache_arg]

theorem forwardAll_congr [LinearOrderedField α] (exp : α → α) (ls ks : List (Layer α))
    (x : List α) (h : ls.map Layer.eraseCache = ks.map Layer.eraseCache) :
    forwardAll exp ls x = forwardAll exp ks x := by
  induction ls generalizing ks x with
  | nil =>
    cases ks with
    | nil => rfl
    | cons k ks => simp at h
  | cons l ls ih =>
    cases ks with
    | nil => simp at h
    | cons k ks =>
      simp only [List.map_cons, List.cons.injEq] at h
      simp only [forwardAll, Layer.forward_congr exp l k x h.1]
      cases k.forward exp x with
      | none => rfl
      | some r => simp only [Option.some_bind, ih ks r.2 h.2]

theorem NN.forward_propagation_congr [LinearOrderedField α] (exp : α → α) (nn nn' : NN α)
    (x : List α) (h : nn'.layers.map Layer.eraseCache = nn.layers.map Layer.eraseCache) :
    nn'.forward_propagation exp x = nn.forward_propagation exp x := by
  rw [NN.forward_propagation_eq, NN.forward_propagation_eq,
    forwardAll_congr exp nn'.layers nn.layers x h]

/-- C11. Idempotence of `predict`: when `predict(x)` returns the output `out`
and the state `nn'`, a second `predict(x)` on `nn'`, with no training in
between, returns the same output `out` (and leaves the state `nn'`). -/
theorem NN.predict_idempotent [LinearOrderedField α] (exp : α → α) (nn nn' : NN α)
    (x out : List α) (h : nn.predict exp x = some (nn', out)) :
    nn'.predict exp x = some (nn', out) := by
  unfold NN.predict at h ⊢
  rw [NN.forward_propagation_congr exp nn nn' x
    (NN.forward_propagation_eraseCache exp nn nn' x out h)]
  exact h

/-- The theorem `NN.predict_idempotent` at `reluPipeline` and the input `[1]`. -/
theorem NN.predict_idempotent_witness :
    reluPipeline.predict (fun v => v) [1]
        = some ({ layers := [.Relu { input := [1], output := [1] }] }, [1]) ∧
      ({ layers := [.Relu { input := [1], output := [1] }] } : NN ℚ).predict (fun v => v) [1]
        = some ({ layers := [.Relu { input := [1], output := [1] }] }, [1]) :=
  have h : reluPipeline.predict (fun v => v) [1]
      = some ({ layers := [.Relu { input := [1], output := [1] }] }, [1]) := by
    simp [reluPipeline, NN.predict, NN.forward_propagation, Layer.forward, Relu.forward,
      vectRelu, relu]
  ⟨h, NN.predict_idempotent (fun v => v) reluPipeline _ [1] [1] h⟩

/-! ## The loss functions -/

theorem BCELoss_eq [Field α] (log : α → α) (y p : List α) (h : p.length ≤ y.length) :
    BCELoss log y p
      = some (-(1 / (y.length : α)) *
          ∑ i in Finset.range p.length,
            (y.getD i 0 * log (p.getD i 0) + (1 - y.getD i 0) * log (1 - p.getD i 0))) := by
  have := foldlM_range_inv p.length
    (fun sum i => do
      let yi ← y[i]?
      let pi ← p[i]?
      pure (sum + (yi * log pi + (1 - yi) * log (1 - pi))))
    (fun k => ∑ i in Finset.range k,
      (y.getD i 0 * log (p.getD i 0) + (1 - y.getD i 0) * log (1 - p.getD i 0)))
    (fun i hi => by
      have hi2 : i < y.length := lt_of_lt_of_le hi h
      simp only [Finset.sum_range_succ, getElem?_getD _ _ hi, getElem?_getD _ _ hi2,
        Option.bind_eq_bind, Option.some_bind, pure])
  simp only [Finset.range_zero, Finset.sum_empty] at this
  unfold BCELoss
  rw [this]
  simp

/-- C12. `BCELoss` computes the mean binary cross-entropy: for labels `y` and
predictions `p` of the same length `N ≥ 1`, every `p[i]` strictly inside
`(0, 1)`, `BCELoss(y, p) = -(1/N) * Σ_{i<N} (y[i]*ln(p[i]) + (1 - y[i])*ln(1 - p[i]))`.
(The embedded equation holds for every `log`; `N ≥ 1` and the range of `p` are
the domain on which `double` computes finite values.) -/
theorem BCELoss_mean_cross_entropy (y p : List ℝ) (N : Nat) (hy : y.length = N)
    (hp : p.length = N) (_hN : 1 ≤ N)
    (_hrange : ∀ i, i < N → 0 < p.getD i 0 ∧ p.getD i 0 < 1) :
    BCELoss Real.log y p
      = some (-(1 / (N : ℝ)) *
          ∑ i in Finset.range N,
            (y.getD i 0 * Real.log (p.getD i 0)
              + (1 - y.getD i 0) * Real.log (1 - p.getD i 0))) := by
  rw [BCELoss_eq Real.log y p (by omega), hy, hp]

/-- The theorem `BCELoss_mean_cross_entropy` at the labels `[1, 0]` and the
predictions `[1/2, 1/4]`. -/
theorem BCELoss_mean_cross_entropy_witness :
    BCELoss Real.log [1, 0] [1 / 2, 1 / 4]
      = some (-(1 / ((2 : Nat) : ℝ)) *
          ∑ i in Finset.range 2,
            (([1, 0] : List ℝ).getD i 0 * Real.log (([1 / 2, 1 / 4] : List ℝ).getD i 0)
              + (1 - ([1, 0] : List ℝ).getD i 0)
                * Real.log (1 - ([1 / 2, 1 / 4] : List ℝ).getD i 0))) :=
  BCELoss_mean_cross_entropy [1, 0] [1 / 2, 1 / 4] 2 rfl rfl (by decide) (by
    intro i hi
    have : i = 0 ∨ i = 1 := by omega
    rcases this with rfl | rfl <;> norm_num)

/-- C13. `BCELossDerivative` computes the gradient only for index 0: on
non-empty labels `y0 :: ys` and predictions `p0 :: ps` of any lengths the
result is the buffer of length 1 with the entry `(p0 - y0) / (p0 * (1 - p0))`,
and it is the same for all inputs with the same entries at index 0. -/
theorem BCELossDerivative_index_zero [Field α] (y0 p0 : α) (ys ps : List α) :
    BCELossDerivative (y0 :: ys) (p0 :: ps) = some [(p0 - y0) / (p0 * (1 - p0))] ∧
      ([(p0 - y0) / (p0 * (1 - p0))] : List α).length = 1 ∧
      ∀ ys' ps' : List α,
        BCELossDerivative (y0 :: ys') (p0 :: ps') = BCELossDerivative (y0 :: ys) (p0 :: ps) := by
  have h : ∀ ys ps : List α,
      BCELossDerivative (y0 :: ys) (p0 :: ps) = some [(p0 - y0) / (p0 * (1 - p0))] := by
    intro ys ps
    simp [BCELossDerivative]
  exact ⟨h ys ps, rfl, fun ys' ps' => by rw [h ys' ps', h ys ps]⟩

theorem BCELoss_one (t : ℝ) : BCELoss Real.log [1] [t] = some (-Real.log t) := by
  rw [BCELoss_eq Real.log [1] [t] (le_refl _)]
  simp [Finset.sum_range_one]

theorem BCELoss_zero (t : ℝ) : BCELoss Real.log [0] [t] = some (-Real.log (1 - t)) := by
  rw [BCELoss_eq Real.log [0] [t] (le_refl _)]
  simp [Finset.sum_range_one]

/-- C14. Loss sanity: for reals `0 < p < q < 1`, `BCELoss([1], [p])` is
strictly positive and strictly larger than `BCELoss([1], [q])`, and
`BCELoss([1], [t])` tends to `0` as `t` tends to `1` from below; and
`BCELoss([0], [p]) = BCELoss([1], [1 - p])`, so it is strictly positive and
strictly smaller than `BCELoss([0], [q])`. -/
theorem BCELoss_sanity (p q : ℝ) (hp : 0 < p) (hpq : p < q) (hq : q < 1) :
    (∃ a b, BCELoss Real.log [1] [p] = some a ∧ BCELoss Real.log [1] [q] = some b ∧
      0 < a ∧ b < a) ∧
    (∃ f : ℝ → ℝ, (∀ t, BCELoss Real.log [1] [t] = some (f t)) ∧
      Filter.Tendsto f (nhdsWithin 1 (Set.Iio 1)) (nhds 0)) ∧
    BCELoss Real.log [0] [p] = BCELoss Real.log [1] [1 - p] ∧
    (∃ a b, BCELoss Real.log [0] [p] = some a ∧ BCELoss Real.log [0] [q] = some b ∧
      0 < a ∧ a < b) := by
  have hq0 : 0 < q := lt_trans hp hpq
  have hp1 : p < 1 := lt_trans hpq hq
  refine ⟨⟨_, _, BCELoss_one p, BCELoss_one q, ?_, ?_⟩, ⟨fun t => -Real.log t, BCELoss_one, ?_⟩,
    ?_, ⟨_, _, BCELoss_zero p, BCELoss_zero q, ?_, ?_⟩⟩
  · exact neg_pos.mpr (Real.log_neg hp hp1)
  · exact neg_lt_neg (Real.log_lt_log hp hpq)
  · have hc : ContinuousAt (fun t : ℝ => -Real.log t) 1 :=
      (Real.continuousAt_log one_ne_zero).neg
    have h0 : Filter.Tendsto (fun t : ℝ => -Real.log t) (nhds 1) (nhds 0) := by
      have := hc.tendsto
      simpa using this
    exact h0.mono_left nhdsWithin_le_nhds
  · rw [BCELoss_zero, BCELoss_one]
  · exact neg_pos.mpr (Real.log_neg (by linarith) (by linarith))
  · exact neg_lt_neg (Real.log_lt_log (by linarith) (by linarith))

/-- The theorem `BCELoss_sanity` at `p = 1/4` and `q = 1/2`. -/
theorem BCELoss_sanity_witness :
    BCELoss Real.log [0] [1 / 4] = BCELoss Real.log [1] [1 - 1 / 4] :=
  (BCELoss_sanity (1 / 4) (1 / 2) (by norm_num) (by norm_num) (by norm_num)).2.2.1

/-! ## The activation functions over the reals -/

theorem sigmoid_hasDerivAt (x : ℝ) :
    HasDerivAt (sigmoid Real.exp) (sigmoidDerivative Real.exp x) x := by
  have hpos : (1 : ℝ) + Real.exp (-x) ≠ 0 := by positivity
  have h1 : HasDerivAt (fun t : ℝ => Real.exp (-t)) (Real.exp (-x) * (-1)) x :=
    (Real.hasDerivAt_exp (-x)).comp x (hasDerivAt_neg x)
  have h2 : HasDerivAt (fun t : ℝ => 1 + Real.exp (-t)) (Real.exp (-x) * (-1)) x :=
    h1.const_add 1
  have h3 := (hasDerivAt_const x (1 : ℝ)).div h2 hpos
  have heq : sigmoidDerivative Real.exp x
      = (0 * (1 + Real.exp (-x)) - 1 * (Real.exp (-x) * (-1))) / (1 + Real.exp (-x)) ^ 2 := by
    unfold sigmoidDerivative sigmoid
    field_simp
    ring
  rw [heq]
  exact h3

theorem tanh_hasDerivAt (x : ℝ) :
    HasDerivAt (tanh Real.exp) (tanhDerivative Real.exp x) x := by
  have hpos : Real.exp x + Real.exp (-x) ≠ 0 := by positivity
  have h1 : HasDerivAt (fun t : ℝ => Real.exp (-t)) (Real.exp (-x) * (-1)) x :=
    (Real.hasDerivAt_exp (-x)).comp x (hasDerivAt_neg x)
  have hn : HasDerivAt (fun t : ℝ => Real.exp t - Real.exp (-t))
      (Real.exp x - Real.exp (-x) * (-1)) x := (Real.hasDerivAt_exp x).sub h1
  have hd : HasDerivAt (fun t : ℝ => Real.exp t + Real.exp (-t))
      (Real.exp x + Real.exp (-x) * (-1)) x := (Real.hasDerivAt_exp x).add h1
  have h3 := hn.div hd hpos
  have heq : tanhDerivative Real.exp x
      = ((Real.exp x - Real.exp (-x) * (-1)) * (Real.exp x + Real.exp (-x))
          - (Real.exp x - Real.exp (-x)) * (Real.exp x + Real.exp (-x) * (-1)))
        / (Real.exp x + Real.exp (-x)) ^ 2 := by
    unfold tanhDerivative tanh
    field_simp
    ring
  rw [heq]
  exact h3

theorem relu_hasDerivAt (x : ℝ) (hx : x ≠ 0) :
    HasDerivAt (relu : ℝ → ℝ) (reluDerivative x) x := by
  rcases lt_or_gt_of_ne hx with h | h
  · have hd : reluDerivative x = 0 := by simp [reluDerivative, not_le.mpr h]
    rw [hd]
    refine (hasDerivAt_const x (0 : ℝ)).congr_of_eventuallyEq ?_
    filter_upwards [Iio_mem_nhds h] with t ht
    have ht' : t < 0 := ht
    simp [relu, not_lt.mpr (le_of_lt ht')]
  · have hd : reluDerivative x = 1 := by simp [reluDerivative, le_of_lt h]
    rw [hd]
    refine (hasDerivAt_id x).congr_of_eventuallyEq ?_
    filter_upwards [Ioi_mem_nhds h] with t ht
    have ht' : 0 < t := ht
    simp [relu, ht']

theorem leakyRelu_hasDerivAt (x alpha : ℝ) (hx : x ≠ 0) :
    HasDerivAt (fun t : ℝ => leakyRelu t alpha) (leakyReluDerivative x alpha) x := by
  rcases lt_or_gt_of_ne hx with h | h
  · have hd : leakyReluDerivative x alpha = alpha := by
      simp [leakyReluDerivative, not_le.mpr h]
    rw [hd]
    have hlin : HasDerivAt (fun t : ℝ => alpha * t) alpha x := by
      simpa using (hasDerivAt_id x).const_mul alpha
    refine hlin.congr_of_eventuallyEq ?_
    filter_upwards [Iio_mem_nhds h] with t ht
    have ht' : t < 0 := ht
    simp [leakyRelu, not_lt.mpr (le_of_lt ht')]
  · have hd : leakyReluDerivative x alpha = 1 := by
      simp [leakyReluDerivative, le_of_lt h]
    rw [hd]
    refine (hasDerivAt_id x).congr_of_eventuallyEq ?_
    filter_upwards [Ioi_mem_nhds h] with t ht
    have ht' : 0 < t := ht
    simp [leakyRelu, ht']

/-- A function with derivative `d` at `x` has centered finite differences
`(f (x + h) - f (x - h)) / (2 * h)` tending to `d` as `h` tends to `0`. -/
theorem centered_difference_tendsto (f : ℝ → ℝ) (d x : ℝ) (hf : HasDerivAt f d x) :
    Filter.Tendsto (fun h : ℝ => (f (x + h) - f (x - h)) / (2 * h))
      (nhdsWithin 0 (Set.compl {0})) (nhds d) := by
  have h1 : Filter.Tendsto (fun t : ℝ => t⁻¹ • (f (x + t) - f x))
      (nhdsWithin 0 (Set.compl {0})) (nhds d) := hf.tendsto_slope_zero
  have hneg : Filter.Tendsto (fun t : ℝ => -t) (nhdsWithin 0 (Set.compl {0}))
      (nhdsWithin 0 (Set.compl {0})) := by
    apply tendsto_nhdsWithin_of_tendsto_nhds_of_eventually_within
    · have : Filter.Tendsto (fun t : ℝ => -t) (nhds 0) (nhds 0) := by
        simpa using (continuous_neg.tendsto (0 : ℝ))
      exact this.mono_left nhdsWithin_le_nhds
    · filter_upwards [self_mem_nhdsWithin] with t ht
      have ht0 : t ≠ 0 := ht
      exact neg_ne_zero.mpr ht0
  have h2 := h1.comp hneg
  have h3 := (h1.add h2).const_mul (1 / 2 : ℝ)
  have hd : (1 / 2 : ℝ) * (d + d) = d := by ring
  rw [hd] at h3
  refine h3.congr' ?_
  filter_upwards [self_mem_nhdsWithin] with t ht
  have ht0 : t ≠ 0 := ht
  simp only [Function.comp, smul_eq_mul]
  rw [show x + -t = x - t from by ring, inv_neg]
  field_simp

/-- C15. Activation derivative law over the reals: at every `t`,
`sigmoidDerivative(t)` is the derivative of `sigmoid` and `tanhDerivative(t)`
the derivative of `tanh`; at every `x ≠ 0` and for every `alpha`,
`reluDerivative(x)` is the derivative of `relu` and
`leakyReluDerivative(x, alpha)` the derivative of `leakyRelu(., alpha)`; each
derivative is also the limit of the centered finite difference
`(f (x + h) - f (x - h)) / (2 * h)` as `h` tends to `0`. -/
theorem activation_derivative_law (x alpha : ℝ) (hx : x ≠ 0) :
    (∀ t : ℝ, HasDerivAt (sigmoid Real.exp) (sigmoidDerivative Real.exp t) t ∧
      Filter.Tendsto
        (fun h : ℝ => (sigmoid Real.exp (t + h) - sigmoid Real.exp (t - h)) / (2 * h))
        (nhdsWithin 0 (Set.compl {0})) (nhds (sigmoidDerivative Real.exp t))) ∧
    (∀ t : ℝ, HasDerivAt (tanh Real.exp) (tanhDerivative Real.exp t) t ∧
      Filter.Tendsto
        (fun h : ℝ => (tanh Real.exp (t + h) - tanh Real.exp (t - h)) / (2 * h))
        (nhdsWithin 0 (Set.compl {0})) (nhds (tanhDerivative Real.exp t))) ∧
    (HasDerivAt (relu : ℝ → ℝ) (reluDerivative x) x ∧
      Filter.Tendsto (fun h : ℝ => (relu (x + h) - relu (x - h)) / (2 * h))
        (nhdsWithin 0 (Set.compl {0})) (nhds (reluDerivative x))) ∧
    (HasDerivAt (fun t : ℝ => leakyRelu t alpha) (leakyReluDerivative x alpha) x ∧
      Filter.Tendsto
        (fun h : ℝ => (leakyRelu (x + h) alpha - leakyRelu (x - h) alpha) / (2 * h))
        (nhdsWithin 0 (Set.compl {0})) (nhds (leakyReluDerivative x alpha))) :=
  ⟨fun t => ⟨sigmoid_hasDerivAt t,
      centered_difference_tendsto (sigmoid Real.exp) (sigmoidDerivative Real.exp t) t
        (sigmoid_hasDerivAt t)⟩,
    fun t => ⟨tanh_hasDerivAt t,
      centered_difference_tendsto (tanh Real.exp) (tanhDerivative Real.exp t) t
        (tanh_hasDerivAt t)⟩,
    ⟨relu_hasDerivAt x hx,
      centered_difference_tendsto relu (reluDerivative x) x (relu_hasDerivAt x hx)⟩,
    ⟨leakyRelu_hasDerivAt x alpha hx,
      centered_difference_tendsto (fun t => leakyRelu t alpha) (leakyReluDerivative x alpha) x
        (leakyRelu_hasDerivAt x alpha hx)⟩⟩

/-- The theorem `activation_derivative_law` at `x = -2` and `alpha = 1/100`. -/
theorem activation_derivative_law_witness :
    (-2 : ℝ) ≠ 0 ∧
      HasDerivAt (fun t : ℝ => leakyRelu t (1 / 100)) (leakyReluDerivative (-2) (1 / 100)) (-2) :=
  ⟨by norm_num, (activation_derivative_law (-2) (1 / 100) (by norm_num)).2.2.2.1⟩

/-- C16. Rectifier definitions and boundary convention: `relu(x)` is `x` if
`x > 0` and `0` otherwise; `reluDerivative(x)` is `1` if `x ≥ 0` and `0`
otherwise; `leakyRelu(x, alpha)` is `x` if `x > 0` and `alpha * x` otherwise;
`leakyReluDerivative(x, alpha)` is `1` if `x ≥ 0` and `alpha` otherwise; so both
derivatives are `1` at `0`; and the `LeakyRelu` layer is built with
`alpha = 0.01`, which its `forward` and `backward` pass to these functions. -/
theorem rectifier_definitions [LinearOrderedField α] (x alpha : α) :
    (relu x = if x > 0 then x else 0) ∧
    (reluDerivative x = if x ≥ 0 then 1 else 0) ∧
    (leakyRelu x alpha = if x > 0 then x else alpha * x) ∧
    (leakyReluDerivative x alpha = if x ≥ 0 then 1 else alpha) ∧
    ((0 < x → relu x = x ∧ leakyRelu x alpha = x) ∧
      (x ≤ 0 → relu x = 0 ∧ leakyRelu x alpha = alpha * x) ∧
      (0 ≤ x → reluDerivative x = 1 ∧ leakyReluDerivative x alpha = 1) ∧
      (x < 0 → reluDerivative x = 0 ∧ leakyReluDerivative x alpha = alpha)) ∧
    (reluDerivative (0 : α) = 1 ∧ leakyReluDerivative (0 : α) alpha = 1) ∧
    ((LeakyRelu.new : LeakyRelu α).alpha = 1 / 100 ∧
      (1 / 100 : α) = 0.01 ∧
      (∀ xs : List α, ((LeakyRelu.new : LeakyRelu α).forward xs).2
        = xs.map (fun v => leakyRelu v (1 / 100))) ∧
      (∀ s : LeakyRelu α, vectLeakyReluDerivative s.input s.alpha
        = s.input.map (fun v => leakyReluDerivative v s.alpha))) := by
  refine ⟨rfl, rfl, rfl, rfl, ⟨?_, ?_, ?_, ?_⟩, ⟨?_, ?_⟩, ⟨rfl, ?_, fun xs => rfl, fun s => rfl⟩⟩
  · intro h
    simp [relu, leakyRelu, h]
  · intro h
    simp [relu, leakyRelu, not_lt.mpr h]
  · intro h
    simp [reluDerivative, leakyReluDerivative, h]
  · intro h
    simp [reluDerivative, leakyReluDerivative, not_le.mpr h]
  · simp [reluDerivative]
  · simp [leakyReluDerivative]
  · norm_num

/-! ## Shapes: the dimension invariant, `transpose`, `dotProduct` -/

theorem foldlM_range_none {σ : Type} (n : Nat) (step : σ → Nat → Option σ) (init : σ)
    (i : Nat) (hi : i < n) (h : ∀ acc, step acc i = none) :
    (List.range n).foldlM step init = none := by
  induction n with
  | zero => exact absurd hi (Nat.not_lt_zero i)
  | succ k ih =>
    rw [List.range_succ, List.foldlM_append]
    cases hk : (List.range k).foldlM step init with
    | none => rfl
    | some acc =>
      rcases Nat.lt_succ_iff_lt_or_eq.mp hi with h1 | h1
      · rw [ih h1] at hk
        cases hk
      · subst h1
        simp [h acc]

theorem dotProduct_eq_none [Field α] (v1 v2 : List α) (h : v2.length < v1.length) :
    dotProduct v1 v2 = none := by
  unfold dotProduct
  apply foldlM_range_none v1.length _ _ v2.length h
  intro acc
  have h1 : v2[v2.length]? = none := List.getElem?_eq_none (le_refl _)
  simp only [h1, getElem?_getD v1 _ h, Option.bind_eq_bind, Option.some_bind, Option.none_bind]

theorem Linear.forward_eq_none [Field α] (self : Linear α) (x : List α) (m n : Nat)
    (hd : self.HasDims m n) (hn : 1 ≤ n) (hx : x.length < m) : self.forward x = none := by
  obtain ⟨-, hno, hW, hb⟩ := hd
  have hloop : (List.range n).foldlM
      (fun output i => do
        let w ← self.weights[i]?
        let d ← dotProduct w x
        let b ← self.bias[i]?
        pure (output ++ [d + b]))
      ([] : List α) = none := by
    apply foldlM_range_none n _ _ 0 hn
    intro acc
    obtain ⟨row, hrow, hlen, -⟩ := hW.getElem? 0 hn
    simp only [hrow, dotProduct_eq_none row x (by omega), Option.bind_eq_bind, Option.some_bind,
      Option.none_bind]
  unfold Linear.forward
  dsimp only
  rw [hno, Int.toNat_ofNat, hloop]
  rfl

theorem Linear.backward_hasDims [Field α] (self : Linear α) (e : List α) (r : α) (m n : Nat)
    (hd : self.HasDims m n) (hx : self.input.length = m) (he : e.length = n)
    (l2 : Linear α) (g : List α) (h : self.backward e r = some (l2, g)) : l2.HasDims m n := by
  rcases Nat.eq_zero_or_pos n with h0 | hn
  · subst h0
    have hw : self.weights = [] := List.length_eq_zero.mp hd.2.2.1.1
    rw [Linear.backward_eq_none_of_no_rows self e r hw] at h
    cases h
  · rw [Linear.backward_eq self e r m n hd hx he hn] at h
    injection h with h
    injection h with hl _
    subst hl
    exact ⟨hd.1, hd.2.1, table_isMatrix _ _ _, by simp⟩

/-- C17. Dense dimension invariant: `weights` has `output_size` rows, each of
length `input_size`, and `bias` has length `output_size`. It holds for the
layer built by `Linear(m, n)`; every state returned by `forward`, on any
input, satisfies it again (and `forward` returns on every input of length at
least `m`); and every state returned by `backward(error, learning_rate)` with
an error of length `n` and a cached input of length `m` satisfies it again
(and that call returns whenever `n ≥ 1`). -/
theorem Linear.dimension_invariant [Field α] (self : Linear α) (m n : Nat)
    (hd : self.HasDims m n) :
    (∀ wdis bdis : Nat → α,
      ∃ l, Linear.new wdis bdis (m : Int) (n : Int) = some l ∧ l.HasDims m n) ∧
    (∀ (x : List α) (l1 : Linear α) (out : List α),
      self.forward x = some (l1, out) → l1.HasDims m n) ∧
    (∀ x : List α, m ≤ x.length → (self.forward x).isSome = true) ∧
    (∀ (e : List α) (r : α), e.length = n → self.input.length = m →
      (1 ≤ n → (self.backward e r).isSome = true) ∧
      ∀ (l2 : Linear α) (g : List α), self.backward e r = some (l2, g) → l2.HasDims m n) := by
  refine ⟨fun wdis bdis => Linear.new_hasDims wdis bdis m n,
    fun x l1 out h => Linear.forward_hasDims self x m n hd l1 out h, ?_, ?_⟩
  · intro x hx
    rw [Linear.forward_eq self x m n hd hx]
    rfl
  · intro e r he hx
    refine ⟨fun hn => ?_, fun l2 g h => Linear.backward_hasDims self e r m n hd hx he l2 g h⟩
    rw [Linear.backward_eq self e r m n hd hx he hn]
    rfl

/-- The theorem `Linear.dimension_invariant` at `exampleLinear`, whose cached
input is `[1, 1]`, with the error `[1, 2]`. -/
theorem Linear.dimension_invariant_witness :
    exampleLinear.HasDims 2 2 ∧ (exampleLinear.forward [3, 4]).isSome = true ∧
      (exampleLinear.backward [1, 2] (1 / 10)).isSome = true :=
  have h := Linear.dimension_invariant exampleLinear 2 2 (by decide)
  ⟨by decide, h.2.2.1 [3, 4] (by decide), (h.2.2.2 [1, 2] (1 / 10) rfl rfl).1 (by decide)⟩

/-- C19. `transpose`: for a matrix `m` with `r ≥ 1` rows, all of length `c`,
`transpose(m)` returns a matrix with exactly `c` rows, each of length `r`,
whose entry `[j][i]` is the entry `[i][j]` of `m` for all `i < r`, `j < c`.
The result is a new value; the argument `m` is only read. -/
theorem transpose_spec [Zero α] (m : List (List α)) (r c : Nat) (h : IsMatrix m r c)
    (hr : 1 ≤ r) :
    ∃ t, transpose m = some t ∧ IsMatrix t c r ∧
      ∀ i j, i < r → j < c →
        ∃ v, (m[i]?).bind (fun row => row[j]?) = some v ∧
          (t[j]?).bind (fun row => row[i]?) = some v := by
  refine ⟨_, transpose_eq m r c h hr, table_isMatrix _ _ _, ?_⟩
  intro i j hi hj
  obtain ⟨row, hrow, hlen, hent⟩ := h.getElem? i hi
  refine ⟨entry m i j, ?_, ?_⟩
  · rw [hrow, Option.some_bind, getElem?_getD row j (by omega), hent j]
  · rw [table_getElem? _ _ _ _ hj, Option.some_bind, getElem?_range_map, if_pos hi]

/-- The theorem `transpose_spec` at the `2 × 3` matrix `[[1, 2, 3], [4, 5, 6]]`. -/
theorem transpose_spec_witness :
    IsMatrix ([[1, 2, 3], [4, 5, 6]] : List (List ℚ)) 2 3 ∧
      ∃ t, transpose ([[1, 2, 3], [4, 5, 6]] : List (List ℚ)) = some t ∧ IsMatrix t 3 2 :=
  ⟨by decide,
    (transpose_spec [[1, 2, 3], [4, 5, 6]] 2 3 (by decide) (by decide)).imp
      (fun _ h => ⟨h.1, h.2.1⟩)⟩

/-- C20, counterexample. The buffers `[1]` and `[1, 2]` have unequal lengths and
`dotProduct` returns `1` on them; and the dense layer `exampleLinear`, with
`input_size = 2`, returns `[13, 27]` from `forward` on the input `[1, 1, 5]`
of length 3. -/
theorem dotProduct_returns_on_longer_second :
    ([1] : List ℚ).length ≠ ([1, 2] : List ℚ).length ∧
      dotProduct ([1] : List ℚ) [1, 2] = some 1 ∧
      exampleLinear.HasDims 2 2 ∧
      exampleLinear.forward [1, 1, 5]
        = some ({ exampleLinear with input := [1, 1, 5], output := [13, 27] }, [13, 27]) := by
  refine ⟨by decide, ?_, by decide, ?_⟩
  · simp [dotProduct, List.range, List.range.loop]
  · simp [exampleLinear, Linear.forward, dotProduct, List.range, List.range.loop]
    norm_num

/-- C20, amended. `dotProduct(a, b)` returns `Σ_{i < |a|} a[i] * b[i]` whenever
`b` is at least as long as `a` (for equal lengths this is the full sum; entries
of `b` past the length of `a` are ignored), and it is a fault, the read
`b[i]` being out of range, exactly when `b` is shorter than `a`. Likewise a
dense layer with `input_size = m` and `output_size = n ≥ 1` faults in
`forward` on an input shorter than `m`, and on an input of length at least
`m` returns the affine map of its first `m` entries. -/
theorem dotProduct_shape [Field α] (a b : List α) :
    (a.length ≤ b.length →
      dotProduct a b = some (∑ i in Finset.range a.length, a.getD i 0 * b.getD i 0)) ∧
    (b.length < a.length → dotProduct a b = none) ∧
    (∀ (self : Linear α) (m n : Nat) (x : List α), self.HasDims m n →
      (1 ≤ n → x.length < m → self.forward x = none) ∧
      (m ≤ x.length →
        ∃ l1, self.forward x
          = some (l1, (List.range n).map (fun i =>
              (∑ j in Finset.range m, entry self.weights i j * x.getD j 0)
                + self.bias.getD i 0)))) :=
  ⟨dotProduct_eq a b, dotProduct_eq_none a b,
    fun self m n x hd =>
      ⟨fun hn hx => Linear.forward_eq_none self x m n hd hn hx,
        fun hx => ⟨_, Linear.forward_eq self x m n hd hx⟩⟩⟩

/-! ## The end-to-end scenario of `main` -/

/-- The two nested loops of `NN::fit` against the epoch-wise description. -/
theorem NN.fit_eq [LinearOrderedField α] (exp log : α → α) (nn : NN α)
    (X Y : List (List α)) (epochs : Int) (learning_rate : α) (hY : X.length ≤ Y.length) :
    nn.fit exp log X Y epochs learning_rate
      = (stateAfterEpochs exp learning_rate (X.zip Y) nn epochs.toNat).bind (fun s' =>
          (reportedLosses exp log learning_rate (X.zip Y) nn epochs.toNat).map
            (fun ls => (s', ls))) := by
  have hlen : (X.zip Y).length = X.length := by simp [List.length_zip, hY]
  unfold NN.fit
  apply fit_outer_loop exp log learning_rate (X.zip Y)
  intro st epoch
  rw [← hlen]
  rw [foldlM_range_eq_foldlM (X.zip Y) _
    (fun acc xy => (acc.1.forward_propagation exp xy.1).bind (fun r =>
          (BCELoss log xy.2 r.2).bind (fun loss =>
            (BCELossDerivative xy.2 r.2).bind (fun d =>
              (r.1.back_propagation exp d learning_rate).map (fun nn =>
                (nn, acc.2 + loss))))))
    (fun acc i hi => fit_inner_step exp log learning_rate X Y hY acc i hi)]
  rw [fit_epoch_loop exp log learning_rate _ (fun acc xy => rfl)]
  cases List.foldlM (fitStep exp learning_rate) st.1 (X.zip Y) with
  | none => rfl
  | some s' =>
    simp only [Option.bind_eq_bind, Option.some_bind]
    cases epochLoss exp log learning_rate st.1 (X.zip Y) with
    | none => rfl
    | some l => simp

/-- One training step on a pipeline with the layers of `main`, given the results
of the calls it makes in order. -/
theorem xor_step_trace [LinearOrderedField α] (exp : α → α) (r : α)
    (l1 l2 l3 l1c l2c l3c l1' l2' l3' : Linear α) (r1 r2 : Relu α) (s : Sigmoid α)
    (x y o1 o2 o3 d g1 g2 g3 g4 g5 g6 : List α)
    (h1 : l1.forward x = some (l1c, o1))
    (h2 : l2.forward (o1.map relu) = some (l2c, o2))
    (h3 : l3.forward (o2.map relu) = some (l3c, o3))
    (hd : BCELossDerivative y (o3.map (sigmoid exp)) = some d)
    (hg6 : gradInput d (o3.map (sigmoidDerivative exp)) = some g6)
    (hb3 : l3c.backward g6 r = some (l3', g5))
    (hg4 : gradInput g5 (o2.map reluDerivative) = some g4)
    (hb2 : l2c.backward g4 r = some (l2', g3))
    (hg2 : gradInput g3 (o1.map reluDerivative) = some g2)
    (hb1 : l1c.backward g2 r = some (l1', g1)) :
    NN.forward_propagation exp
        { layers := [.Linear l1, .Relu r1, .Linear l2, .Relu r2, .Linear l3, .Sigmoid s] } x
      = some ({ layers := [.Linear l1c, .Relu { input := o1, output := o1.map relu },
                  .Linear l2c, .Relu { input := o2, output := o2.map relu },
                  .Linear l3c, .Sigmoid { input := o3, output := o3.map (sigmoid exp) }] },
          o3.map (sigmoid exp)) ∧
    fitStep exp r
        { layers := [.Linear l1, .Relu r1, .Linear l2, .Relu r2, .Linear l3, .Sigmoid s] } (x, y)
      = some { layers := [.Linear l1', .Relu { input := o1, output := o1.map relu },
                  .Linear l2', .Relu { input := o2, output := o2.map relu },
                  .Linear l3', .Sigmoid { input := o3, output := o3.map (sigmoid exp) }] } := by
  have hf : NN.forward_propagation exp
        { layers := [.Linear l1, .Relu r1, .Linear l2, .Relu r2, .Linear l3, .Sigmoid s] } x
      = some ({ layers := [.Linear l1c, .Relu { input := o1, output := o1.map relu },
                  .Linear l2c, .Relu { input := o2, output := o2.map relu },
                  .Linear l3c, .Sigmoid { input := o3, output := o3.map (sigmoid exp) }] },
          o3.map (sigmoid exp)) := by
    rw [NN.forward_propagation_eq]
    simp only [forwardAll, Layer.forward, h1, h2, h3, Relu.forward, Sigmoid.forward, vectRelu,
      vectSigmoid, Option.map_some', Option.some_bind]
  refine ⟨hf, ?_⟩
  unfold fitStep
  rw [hf]
  simp only [Option.some_bind, hd, NN.back_propagation_eq, backwardAll, Layer.backward,
    Sigmoid.backward, Relu.backward, vectSigmoidDerivative, vectReluDerivative, hg6, hb3, hg4,
    hb2, hg2, hb1, Option.map_some', Option.bind_eq_bind, pure]

theorem Linear.forward_affine_eq [Field α] (self : Linear α) (x : List α) (m n : Nat)
    (hd : self.HasDims m n) (hx : m ≤ x.length) :
    self.forward x
      = some ({ self with input := x, output := affine self.weights self.bias m n x },
          affine self.weights self.bias m n x) :=
  Linear.forward_eq self x m n hd hx

theorem Linear.backward_updated_eq [Field α] (self : Linear α) (e : List α) (r : α)
    (m n : Nat) (hd : self.HasDims m n) (hx : self.input.length = m) (he : e.length = n)
    (hn : 0 < n) :
    self.backward e r = some (self.updated m n e r, inputGradient self.weights m n e) :=
  Linear.backward_eq self e r m n hd hx he hn

theorem affine_length [Field α] (w : List (List α)) (b : List α) (m n : Nat) (x : List α) :
    (affine w b m n x).length = n := by
  simp [affine]

theorem inputGradient_length [Field α] (w : List (List α)) (m n : Nat) (e : List α) :
    (inputGradient w m n e).length = m := by
  simp [inputGradient]

theorem Linear.updated_hasDims [Field α] (l : Linear α) (m n : Nat) (e : List α) (r : α)
    (hd : l.HasDims m n) : (l.updated m n e r).HasDims m n :=
  ⟨hd.1, hd.2.1, table_isMatrix _ _ _, by simp [Linear.updated]⟩

/-- One training step on a pipeline with the layers of `main` and an input of
length 2, in closed form. -/
theorem xor_step_explicit [LinearOrderedField α] (exp : α → α) (r : α)
    (l1 l2 l3 : Linear α) (r1 r2 : Relu α) (s : Sigmoid α) (x : List α) (y0 : α)
    (ys : List α) (hd1 : l1.HasDims 2 3) (hd2 : l2.HasDims 3 3) (hd3 : l3.HasDims 3 1)
    (hx : x.length = 2) :
    ∃ o1 o2 z g2 g4 g6,
      o1 = affine l1.weights l1.bias 2 3 x ∧
      o2 = affine l2.weights l2.bias 3 3 (o1.map relu) ∧
      [z] = affine l3.weights l3.bias 3 1 (o2.map relu) ∧
      g6 = [(sigmoid exp z - y0) / (sigmoid exp z * (1 - sigmoid exp z))
              * sigmoidDerivative exp z] ∧
      g4 = List.zipWith (fun g v => g * reluDerivative v) (inputGradient l3.weights 3 1 g6) o2 ∧
      g2 = List.zipWith (fun g v => g * reluDerivative v) (inputGradient l2.weights 3 3 g4) o1 ∧
      NN.forward_propagation exp
          { layers := [.Linear l1, .Relu r1, .Linear l2, .Relu r2, .Linear l3, .Sigmoid s] } x
        = some ({ layers :=
            [.Linear { l1 with input := x, output := o1 },
             .Relu { input := o1, output := o1.map relu },
             .Linear { l2 with input := o1.map relu, output := o2 },
             .Relu { input := o2, output := o2.map relu },
             .Linear { l3 with input := o2.map relu, output := [z] },
             .Sigmoid { input := [z], output := [sigmoid exp z] }] }, [sigmoid exp z]) ∧
      fitStep exp r
          { layers := [.Linear l1, .Relu r1, .Linear l2, .Relu r2, .Linear l3, .Sigmoid s] }
          (x, y0 :: ys)
        = some { layers :=
            [.Linear (Linear.updated { l1 with input := x, output := o1 } 2 3 g2 r),
             .Relu { input := o1, output := o1.map relu },
             .Linear (Linear.updated { l2 with input := o1.map relu, output := o2 } 3 3 g4 r),
             .Relu { input := o2, output := o2.map relu },
             .Linear (Linear.updated { l3 with input := o2.map relu, output := [z] } 3 1 g6 r),
             .Sigmoid { input := [z], output := [sigmoid exp z] }] } := by
  have h1 := Linear.forward_affine_eq l1 x 2 3 hd1 (by omega)
  have h2 := Linear.forward_affine_eq l2 ((affine l1.weights l1.bias 2 3 x).map relu) 3 3 hd2
    (by simp [affine_length])
  have h3 := Linear.forward_affine_eq l3
    ((affine l2.weights l2.bias 3 3 ((affine l1.weights l1.bias 2 3 x).map relu)).map relu)
    3 1 hd3 (by simp [affine_length])
  obtain ⟨z, hz⟩ : ∃ z, affine l3.weights l3.bias 3 1
      ((affine l2.weights l2.bias 3 3 ((affine l1.weights l1.bias 2 3 x).map relu)).map relu)
        = [z] := ⟨_, rfl⟩
  rw [hz] at h3
  have hd : BCELossDerivative (y0 :: ys) ([z].map (sigmoid exp))
      = some [(sigmoid exp z - y0) / (sigmoid exp z * (1 - sigmoid exp z))] := by
    simp [BCELossDerivative]
  have hg6 := gradInput_map (sigmoidDerivative exp)
    [(sigmoid exp z - y0) / (sigmoid exp z * (1 - sigmoid exp z))] [z] rfl
  have hg6' : List.zipWith (fun gi xi => gi * sigmoidDerivative exp xi)
      [(sigmoid exp z - y0) / (sigmoid exp z * (1 - sigmoid exp z))] [z]
      = [(sigmoid exp z - y0) / (sigmoid exp z * (1 - sigmoid exp z))
              * sigmoidDerivative exp z] := rfl
  rw [hg6'] at hg6
  have hb3 := Linear.backward_updated_eq
    ({ l3 with input := (affine l2.weights l2.bias 3 3
          ((affine l1.weights l1.bias 2 3 x).map relu)).map relu, output := [z] } : Linear α)
    [(sigmoid exp z - y0) / (sigmoid exp z * (1 - sigmoid exp z)) * sigmoidDerivative exp z]
    r 3 1 hd3 (by simp [affine_length]) rfl (by decide)
  have hg4 := gradInput_map reluDerivative
    (inputGradient l3.weights 3 1
      [(sigmoid exp z - y0) / (sigmoid exp z * (1 - sigmoid exp z)) * sigmoidDerivative exp z])
    (affine l2.weights l2.bias 3 3 ((affine l1.weights l1.bias 2 3 x).map relu))
    (by rw [inputGradient_length, affine_length])
  have hb2 := Linear.backward_updated_eq
    ({ l2 with input := (affine l1.weights l1.bias 2 3 x).map relu,
               output := affine l2.weights l2.bias 3 3
                 ((affine l1.weights l1.bias 2 3 x).map relu) } : Linear α)
    (List.zipWith (fun g v => g * reluDerivative v)
      (inputGradient l3.weights 3 1
        [(sigmoid exp z - y0) / (sigmoid exp z * (1 - sigmoid exp z))
          * sigmoidDerivative exp z])
      (affine l2.weights l2.bias 3 3 ((affine l1.weights l1.bias 2 3 x).map relu)))
    r 3 3 hd2 (by simp [affine_length])
    (by simp [List.length_zipWith, inputGradient_length, affine_length]) (by decide)
  have hg2 := gradInput_map reluDerivative
    (inputGradient l2.weights 3 3
      (List.zipWith (fun g v => g * reluDerivative v)
        (inputGradient l3.weights 3 1
          [(sigmoid exp z - y0) / (sigmoid exp z * (1 - sigmoid exp z))
            * sigmoidDerivative exp z])
        (affine l2.weights l2.bias 3 3 ((affine l1.weights l1.bias 2 3 x).map relu))))
    (affine l1.weights l1.bias 2 3 x)
    (by rw [inputGradient_length, affine_length])
  have hb1 := Linear.backward_updated_eq
    ({ l1 with input := x, output := affine l1.weights l1.bias 2 3 x } : Linear α)
    (List.zipWith (fun g v => g * reluDerivative v)
      (inputGradient l2.weights 3 3
        (List.zipWith (fun g v => g * reluDerivative v)
          (inputGradient l3.weights 3 1
            [(sigmoid exp z - y0) / (sigmoid exp z * (1 - sigmoid exp z))
              * sigmoidDerivative exp z])
          (affine l2.weights l2.bias 3 3 ((affine l1.weights l1.bias 2 3 x).map relu))))
      (affine l1.weights l1.bias 2 3 x))
    r 2 3 hd1 hx
    (by simp [List.length_zipWith, inputGradient_length, affine_length]) (by decide)
  have ht := xor_step_trace exp r l1 l2 l3 _ _ _ _ _ _ r1 r2 s x (y0 :: ys) _ _ _ _ _ _ _ _ _ _
    h1 h2 h3 hd hg6 hb3 hg4 hb2 hg2 hb1
  exact ⟨_, _, z, _, _, _, rfl, rfl, hz.symm, rfl, rfl, rfl, ht.1, ht.2⟩

theorem getD_range_map [Zero α] (n : Nat) (f : Nat → α) (i : Nat) :
    ((List.range n).map f).getD i 0 = if i < n then f i else 0 := by
  rw [List.getD_eq_getElem?_getD, getElem?_range_map]
  by_cases h : i < n <;> simp [h]

theorem entry_table_ite [Zero α] (r c : Nat) (f : Nat → Nat → α) (i j : Nat) :
    entry (table r c f) i j = if i < r ∧ j < c then f i j else 0 := by
  by_cases hi : i < r
  · by_cases hj : j < c
    · rw [entry_table r c f i j hi hj, if_pos ⟨hi, hj⟩]
    · have h : (table r c f).getD i [] = (List.range c).map (fun j => f i j) := by
        rw [List.getD_eq_getElem?_getD, table_getElem? r c f i hi]
        rfl
      rw [if_neg (fun h => hj h.2)]
      unfold entry
      rw [h, getD_range_map, if_neg hj]
  · have h : (table r c f).getD i [] = [] := by
      rw [List.getD_eq_getElem?_getD,
        List.getElem?_eq_none (by rw [table_length]; omega)]
      rfl
    rw [if_neg (fun h => hi h.1)]
    unfold entry
    rw [h]
    rfl

theorem affine_zeroWeights [Field α] (w : List (List α)) (b : List α) (m n : Nat)
    (x : List α) (hw : ∀ i j, entry w i j = 0) :
    affine w b m n x = (List.range n).map (fun i => b.getD i 0) := by
  unfold affine
  apply range_map_congr
  intro i _
  rw [Finset.sum_eq_zero (fun j _ => by rw [hw i j, zero_mul]), zero_add]

theorem affine_zero [Field α] (w : List (List α)) (b : List α) (m n : Nat)
    (x : List α) (hw : ∀ i j, entry w i j = 0) (hb : ∀ i, b.getD i 0 = 0) :
    affine w b m n x = List.replicate n 0 := by
  rw [affine_zeroWeights w b m n x hw]
  apply List.ext_getElem?
  intro i
  rw [getElem?_range_map, List.getElem?_replicate, hb i]

theorem inputGradient_getD_zero [Field α] (w : List (List α)) (m n : Nat) (e : List α)
    (hw : ∀ i j, entry w i j = 0) (j : Nat) : (inputGradient w m n e).getD j 0 = 0 := by
  unfold inputGradient
  rw [getD_range_map]
  by_cases hj : j < m
  · rw [if_pos hj]
    exact Finset.sum_eq_zero (fun i _ => by rw [hw i j, zero_mul])
  · rw [if_neg hj]

theorem zipWith_getD_zero [Field α] (f : α → α) (a b : List α)
    (ha : ∀ i, a.getD i 0 = 0) (i : Nat) :
    (List.zipWith (fun g v => g * f v) a b).getD i 0 = 0 := by
  rw [List.getD_eq_getElem?_getD, List.getElem?_zipWith]
  cases hai : a[i]? with
  | none => rfl
  | some u =>
    cases hbi : b[i]? with
    | none => rfl
    | some v =>
      have := ha i
      rw [List.getD_eq_getElem?_getD, hai] at this
      simp only [Option.getD_some] at this
      simp [this]

theorem replicate_getD_zero [Zero α] (n i : Nat) : (List.replicate n (0 : α)).getD i 0 = 0 := by
  rw [List.getD_eq_getElem?_getD, List.getElem?_replicate]
  by_cases h : i < n <;> simp [h]

theorem map_relu_replicate_zero [LinearOrderedField α] (n : Nat) :
    (List.replicate n (0 : α)).map relu = List.replicate n 0 := by
  simp [relu]

theorem Linear.updated_zeroWeights [Field α] (l : Linear α) (m n : Nat) (e : List α) (r : α)
    (hw : l.ZeroWeights) (h : ∀ i j, e.getD i 0 * l.input.getD j 0 = 0) :
    (l.updated m n e r).ZeroWeights := by
  intro i j
  show entry (table n m _) i j = 0
  rw [entry_table_ite]
  by_cases hij : i < n ∧ j < m
  · rw [if_pos hij, hw i j, h i j]
    simp
  · rw [if_neg hij]

theorem Linear.updated_zeroBias [Field α] (l : Linear α) (m n : Nat) (e : List α) (r : α)
    (hb : l.ZeroBias) (he : ∀ i, e.getD i 0 = 0) : (l.updated m n e r).ZeroBias := by
  intro i
  show ((List.range n).map _).getD i 0 = 0
  rw [getD_range_map]
  by_cases hi : i < n
  · rw [if_pos hi, hb i, he i]
    simp
  · rw [if_neg hi]

theorem xor_step_shape [LinearOrderedField α] (exp : α → α) (r : α) (nn : NN α)
    (x : List α) (y0 : α) (ys : List α) (hs : XorShaped nn) (hx : x.length = 2) :
    ∃ nn1 z nn', nn.forward_propagation exp x = some (nn1, [sigmoid exp z]) ∧ XorShaped nn1 ∧
      fitStep exp r nn (x, y0 :: ys) = some nn' ∧ XorShaped nn' := by
  obtain ⟨l1, r1, l2, r2, l3, s, hl, hd1, hd2, hd3⟩ := hs
  obtain ⟨layers⟩ := nn
  simp only at hl
  subst hl
  obtain ⟨o1, o2, z, g2, g4, g6, -, -, -, -, -, -, hf, hstep⟩ :=
    xor_step_explicit exp r l1 l2 l3 r1 r2 s x y0 ys hd1 hd2 hd3 hx
  exact ⟨_, z, _, hf, ⟨_, _, _, _, _, _, rfl, hd1, hd2, hd3⟩, hstep,
    ⟨_, _, _, _, _, _, rfl, Linear.updated_hasDims _ 2 3 g2 r hd1,
      Linear.updated_hasDims _ 3 3 g4 r hd2, Linear.updated_hasDims _ 3 1 g6 r hd3⟩⟩

theorem xor_step_zero [LinearOrderedField α] (exp : α → α) (r : α) (nn : NN α) (beta : α)
    (x : List α) (y0 : α) (ys : List α) (hz : ZeroTrained nn beta) (hx : x.length = 2) :
    ∃ nn1 nn' beta', nn.forward_propagation exp x = some (nn1, [sigmoid exp beta]) ∧
      ZeroTrained nn1 beta ∧ fitStep exp r nn (x, y0 :: ys) = some nn' ∧
      ZeroTrained nn' beta' := by
  obtain ⟨l1, r1, l2, r2, l3, s, hl, ⟨hd1, hd2, hd3⟩, ⟨hw1, hb1⟩, ⟨hw2, hb2⟩, ⟨hw3, hb3⟩⟩ := hz
  obtain ⟨layers⟩ := nn
  simp only at hl
  subst hl
  obtain ⟨o1, o2, z, g2, g4, g6, ho1, ho2, hz, hg6, hg4, hg2, hf, hstep⟩ :=
    xor_step_explicit exp r l1 l2 l3 r1 r2 s x y0 ys hd1 hd2 hd3 hx
  have ho1' : o1 = List.replicate 3 0 := by rw [ho1]; exact affine_zero _ _ 2 3 x hw1 hb1
  have ho2' : o2 = List.replicate 3 0 := by rw [ho2]; exact affine_zero _ _ 3 3 _ hw2 hb2
  have ha2 : o2.map relu = List.replicate 3 0 := by rw [ho2', map_relu_replicate_zero]
  have hzb : z = beta := by
    rw [affine_zeroWeights _ _ 3 1 _ hw3] at hz
    have h0 : (List.range 1).map (fun i => l3.bias.getD i 0) = [l3.bias.getD 0 0] := rfl
    rw [h0, hb3] at hz
    exact (List.cons.inj hz).1
  have hg4z : ∀ i, g4.getD i 0 = 0 := by
    intro i
    rw [hg4]
    exact zipWith_getD_zero reluDerivative _ _ (inputGradient_getD_zero _ 3 1 g6 hw3) i
  have hg2z : ∀ i, g2.getD i 0 = 0 := by
    intro i
    rw [hg2]
    exact zipWith_getD_zero reluDerivative _ _ (inputGradient_getD_zero _ 3 3 g4 hw2) i
  subst hzb
  refine ⟨_, _, (Linear.updated { l3 with input := o2.map relu, output := [z] } 3 1 g6 r).bias.getD
    0 0, hf, ⟨_, _, _, _, _, _, rfl, ⟨hd1, hd2, hd3⟩, ⟨hw1, hb1⟩, ⟨hw2, hb2⟩, ⟨hw3, hb3⟩⟩, hstep,
    ⟨_, _, _, _, _, _, rfl,
      ⟨Linear.updated_hasDims _ 2 3 g2 r hd1, Linear.updated_hasDims _ 3 3 g4 r hd2,
        Linear.updated_hasDims _ 3 1 g6 r hd3⟩,
      ⟨Linear.updated_zeroWeights _ 2 3 g2 r hw1 (fun i j => by rw [hg2z i, zero_mul]),
        Linear.updated_zeroBias _ 2 3 g2 r hb1 hg2z⟩,
      ⟨Linear.updated_zeroWeights _ 3 3 g4 r hw2 (fun i j => by rw [hg4z i, zero_mul]),
        Linear.updated_zeroBias _ 3 3 g4 r hb2 hg4z⟩,
      ⟨Linear.updated_zeroWeights _ 3 1 g6 r hw3 (fun i j => by
          show g6.getD i 0 * (o2.map relu).getD j 0 = 0
          rw [ha2, replicate_getD_zero, mul_zero]), rfl⟩⟩⟩

theorem epoch_preserves [LinearOrderedField α] (exp log : α → α) (r : α) (P : NN α → Prop)
    (samples : List (List α × List α))
    (hstep : ∀ nn xy, P nn → xy ∈ samples →
      ∃ nn1 out loss nn', nn.forward_propagation exp xy.1 = some (nn1, out) ∧
        BCELoss log xy.2 out = some loss ∧ fitStep exp r nn xy = some nn' ∧ P nn')
    (sub : List (List α × List α)) (hsub : ∀ xy, xy ∈ sub → xy ∈ samples) (nn : NN α)
    (hP : P nn) :
    ∃ nn' t, sub.foldlM (fitStep exp r) nn = some nn' ∧ P nn' ∧
      epochLoss exp log r nn sub = some t := by
  induction sub generalizing nn with
  | nil => exact ⟨nn, 0, rfl, hP, rfl⟩
  | cons xy rest ih =>
    obtain ⟨nn1, out, loss, nn', hf, hl, hs, hP'⟩ :=
      hstep nn xy hP (hsub xy (List.mem_cons_self _ _))
    obtain ⟨nn'', t, hfold, hP'', hloss⟩ :=
      ih (fun xy' h => hsub xy' (List.mem_cons_of_mem _ h)) nn' hP'
    refine ⟨nn'', loss + t, ?_, hP'', ?_⟩
    · rw [List.foldlM_cons, hs]
      exact hfold
    · rw [epochLoss, hf]
      simp only [Option.some_bind, hl, hs, hloss, Option.map_some']

theorem epochs_preserve [LinearOrderedField α] (exp log : α → α) (r : α) (P : NN α → Prop)
    (samples : List (List α × List α))
    (hstep : ∀ nn xy, P nn → xy ∈ samples →
      ∃ nn1 out loss nn', nn.forward_propagation exp xy.1 = some (nn1, out) ∧
        BCELoss log xy.2 out = some loss ∧ fitStep exp r nn xy = some nn' ∧ P nn')
    (nn : NN α) (hP : P nn) (k : Nat) :
    ∃ nn' ls, stateAfterEpochs exp r samples nn k = some nn' ∧ P nn' ∧
      reportedLosses exp log r samples nn k = some ls := by
  induction k with
  | zero => exact ⟨nn, [], rfl, hP, rfl⟩
  | succ k ih =>
    obtain ⟨nnk, ls, hst, hPk, hls⟩ := ih
    obtain ⟨nn', t, hfold, hP', hloss⟩ :=
      epoch_preserves exp log r P samples hstep samples (fun _ h => h) nnk hPk
    refine ⟨nn', ls ++ [(k, t)], ?_, hP', ?_⟩
    · rw [stateAfterEpochs, hst]
      exact hfold
    · rw [reportedLosses, hls]
      simp only [Option.some_bind, hst, hloss, Option.map_some']

theorem predictions_preserve [LinearOrderedField α] (exp : α → α) (P : NN α → Prop)
    (Q : α → Prop)
    (step : NN α × List (α × α) → List α → Option (NN α × List (α × α)))
    (hstep : ∀ st input, step st input
      = (st.1.predict exp input).bind (fun r =>
          (r.2[0]?).bind (fun p => some (r.1, st.2 ++ [(p, threshold p)]))))
    (inputs : List (List α))
    (hpred : ∀ nn x, P nn → x ∈ inputs →
      ∃ nn1 p, nn.predict exp x = some (nn1, [p]) ∧ P nn1 ∧ Q p)
    (nn : NN α) (acc : List (α × α)) (hP : P nn) :
    ∃ nn' res, inputs.foldlM step (nn, acc) = some (nn', acc ++ res) ∧
      res.length = inputs.length ∧ ∀ pr, pr ∈ res → Q pr.1 ∧ pr.2 = threshold pr.1 := by
  induction inputs generalizing nn acc with
  | nil => exact ⟨nn, [], by simp, rfl, fun _ h => absurd h (List.not_mem_nil _)⟩
  | cons x rest ih =>
    obtain ⟨nn1, p, hp, hP1, hQ⟩ := hpred nn x hP (List.mem_cons_self _ _)
    obtain ⟨nn', res, hfold, hlen, hres⟩ :=
      ih (fun nn x hP hx => hpred nn x hP (List.mem_cons_of_mem _ hx)) nn1
        (acc ++ [(p, threshold p)]) hP1
    refine ⟨nn', (p, threshold p) :: res, ?_, by simp [hlen], ?_⟩
    · rw [List.foldlM_cons, hstep, hp]
      simp only [Option.some_bind, List.getElem?_cons_zero, Option.bind_eq_bind]
      rw [hfold]
      simp
    · intro pr hpr
      rcases List.mem_cons.mp hpr with h | h
      · subst h
        exact ⟨hQ, rfl⟩
      · exact hres pr h

theorem list_length_four {β : Type} (l : List β) (h : l.length = 4) :
    ∃ a b c d, l = [a, b, c, d] := by
  match l, h with
  | [a, b, c, d], _ => exact ⟨a, b, c, d, rfl⟩

theorem xor_sample_shape [Field α] (xy : List α × List α)
    (h : xy ∈ (xorX : List (List α)).zip xorY) :
    xy.1.length = 2 ∧ ∃ y0, xy.2 = [y0] := by
  simp only [xorX, xorY, List.zip_cons_cons, List.zip_nil_right, List.mem_cons,
    List.mem_singleton, List.not_mem_nil, or_false] at h
  rcases h with rfl | rfl | rfl | rfl <;> exact ⟨rfl, _, rfl⟩

theorem xor_input_shape [Field α] (x : List α) (h : x ∈ (xorX : List (List α))) :
    x.length = 2 := by
  simp only [xorX, List.mem_cons, List.mem_singleton, List.not_mem_nil, or_false] at h
  rcases h with rfl | rfl | rfl | rfl <;> rfl

/-- Training in `main` from a pipeline that satisfies an invariant `P` which
every training step preserves: `fit` returns a state with `P`. -/
theorem main_fit [LinearOrderedField α] (exp log : α → α) (P : NN α → Prop)
    (nn0 : NN α) (hP0 : P nn0)
    (hstep : ∀ nn xy, P nn → xy ∈ (xorX : List (List α)).zip xorY →
      ∃ nn1 out loss nn', nn.forward_propagation exp xy.1 = some (nn1, out) ∧
        BCELoss log xy.2 out = some loss ∧ fitStep exp (1 / 100) nn xy = some nn' ∧ P nn') :
    ∃ nn' ls, nn0.fit exp log xorX xorY 10000 (1 / 100) = some (nn', ls) ∧ P nn' := by
  obtain ⟨nn', ls, hst, hP', hls⟩ :=
    epochs_preserve exp log (1 / 100) P _ hstep nn0 hP0 (10000 : Int).toNat
  refine ⟨nn', ls, ?_, hP'⟩
  rw [NN.fit_eq exp log nn0 xorX xorY 10000 (1 / 100) (le_of_eq rfl), hst]
  simp only [Option.some_bind, hls, Option.map_some']

/-- The four test blocks of `main` from a pipeline that satisfies an invariant
`P` which every prediction preserves: they yield four probabilities with the
property `Q`, each with its decision. -/
theorem main_test_blocks [LinearOrderedField α] (exp : α → α) (P : NN α → Prop)
    (Q : α → Prop) (nn : NN α) (hP : P nn)
    (hpred : ∀ nn x, P nn → x ∈ (xorX : List (List α)) →
      ∃ nn1 p, nn.predict exp x = some (nn1, [p]) ∧ P nn1 ∧ Q p) :
    ∃ p1 p2 p3 p4,
      mainPredictions exp nn
        = some [(p1, threshold p1), (p2, threshold p2), (p3, threshold p3),
            (p4, threshold p4)] ∧
      Q p1 ∧ Q p2 ∧ Q p3 ∧ Q p4 := by
  obtain ⟨nnf, res, hfold, hlen, hres⟩ :=
    predictions_preserve exp P Q
      (fun (st : NN α × List (α × α)) input => do
        let (nn, output_prob) ← st.1.predict exp input
        let p ← output_prob[0]?
        pure (nn, st.2 ++ [(p, threshold p)]))
      (fun st input => by
      cases h : st.1.predict exp input with
      | none => simp [h]
      | some r =>
        cases h2 : r.2[0]? with
        | none => simp [h, h2]
        | some p => simp [h, h2]) xorX hpred nn [] hP
  obtain ⟨a, b, c, d, rfl⟩ := list_length_four res hlen
  have ha := hres a (by simp)
  have hb := hres b (by simp)
  have hc := hres c (by simp)
  have hd := hres d (by simp)
  refine ⟨a.1, b.1, c.1, d.1, ?_, ha.1, hb.1, hc.1, hd.1⟩
  unfold mainPredictions
  rw [hfold]
  simp only [Option.map_some', List.nil_append, ← ha.2, ← hb.2, ← hc.2, ← hd.2]

theorem mainPipeline_eq [Field α] (w1 b1 w2 b2 w3 b3 : Nat → α) :
    mainPipeline w1 b1 w2 b2 w3 b3
      = some { layers :=
          [.Linear { input_neurons := 2, output_neurons := 3,
                     weights := table 3 2 (fun i j => w1 (i * 2 + j)),
                     bias := (List.range 3).map b1 },
           .Relu {},
           .Linear { input_neurons := 3, output_neurons := 3,
                     weights := table 3 3 (fun i j => w2 (i * 3 + j)),
                     bias := (List.range 3).map b2 },
           .Relu {},
           .Linear { input_neurons := 3, output_neurons := 1,
                     weights := table 1 3 (fun i j => w3 (i * 3 + j)),
                     bias := (List.range 1).map b3 },
           .Sigmoid {}] } := by
  have h1 := Linear.new_eq w1 b1 2 3
  have h2 := Linear.new_eq w2 b2 3 3
  have h3 := Linear.new_eq w3 b3 3 1
  simp only [Nat.cast_ofNat, Nat.cast_one] at h1 h2 h3
  unfold mainPipeline
  rw [h1, h2, h3]
  rfl

theorem mainPipeline_shaped [Field α] (w1 b1 w2 b2 w3 b3 : Nat → α) :
    ∃ nn0, mainPipeline w1 b1 w2 b2 w3 b3 = some nn0 ∧ XorShaped nn0 :=
  ⟨_, mainPipeline_eq w1 b1 w2 b2 w3 b3, _, _, _, _, _, _, rfl,
    ⟨rfl, rfl, table_isMatrix _ _ _, by simp⟩, ⟨rfl, rfl, table_isMatrix _ _ _, by simp⟩,
    ⟨rfl, rfl, table_isMatrix _ _ _, by simp⟩⟩

theorem mainPipeline_zero [Field α] :
    ∃ nn0 : NN α, mainPipeline (fun _ => 0) (fun _ => 0) (fun _ => 0) (fun _ => 0)
        (fun _ => 0) (fun _ => 0) = some nn0 ∧ ZeroTrained nn0 0 := by
  refine ⟨_, mainPipeline_eq _ _ _ _ _ _, _, _, _, _, _, _, rfl,
    ⟨⟨rfl, rfl, table_isMatrix _ _ _, by simp⟩, ⟨rfl, rfl, table_isMatrix _ _ _, by simp⟩,
      ⟨rfl, rfl, table_isMatrix _ _ _, by simp⟩⟩,
    ⟨?_, ?_⟩, ⟨?_, ?_⟩, ⟨?_, ?_⟩⟩
  · intro i j
    dsimp only
    rw [entry_table_ite]
    simp
  · intro i
    dsimp only
    rw [getD_range_map]
    simp
  · intro i j
    dsimp only
    rw [entry_table_ite]
    simp
  · intro i
    dsimp only
    rw [getD_range_map]
    simp
  · intro i j
    dsimp only
    rw [entry_table_ite]
    simp
  · dsimp only
    rw [getD_range_map]
    simp

/-- In exact real arithmetic the source expression `1 / (1 + exp(-z))` lies
strictly between 0 and 1. In binary64 arithmetic it does not: see
`sigmoidDouble_eq_one`. -/
theorem sigmoid_pos_lt_one (z : ℝ) : 0 < sigmoid Real.exp z ∧ sigmoid Real.exp z < 1 := by
  have he : 0 < Real.exp (-z) := Real.exp_pos _
  unfold sigmoid
  constructor
  · positivity
  · rw [div_lt_one (by positivity)]
    linarith

theorem main_unfold [LinearOrderedField α] (exp log : α → α) (w1 b1 w2 b2 w3 b3 : Nat → α)
    (nn0 nn' : NN α) (ls : List (Nat × α))
    (h0 : mainPipeline w1 b1 w2 b2 w3 b3 = some nn0)
    (hfit : nn0.fit exp log xorX xorY 10000 (1 / 100) = some (nn', ls)) :
    main exp log w1 b1 w2 b2 w3 b3 = mainPredictions exp nn' := by
  unfold main
  rw [h0]
  simp only [Option.bind_eq_bind, Option.some_bind, hfit]

theorem threshold_zero_or_one [LinearOrderedField α] (p : α) :
    threshold p = 0 ∨ threshold p = 1 := by
  unfold threshold
  by_cases h : p > 1 / 2
  · exact Or.inr (if_pos h)
  · exact Or.inl (if_neg h)

/-- The scenario of `main` from the all-zero initial values (values in
`[-1, 1]`): `main` trains for 10000 epochs and then predicts the same
probability `p` for all four inputs, so the four decisions are equal and are
not the labels `0, 1, 1, 0`. Whether the trained decisions equal the labels
depends on the initial values. -/
theorem main_zero_initialisation_fails :
    (∃ p : ℝ,
      main Real.exp Real.log (fun _ => 0) (fun _ => 0) (fun _ => 0) (fun _ => 0)
          (fun _ => 0) (fun _ => 0)
        = some [(p, threshold p), (p, threshold p), (p, threshold p), (p, threshold p)]) ∧
    ¬ ∃ p1 p2 p3 p4 : ℝ,
      main Real.exp Real.log (fun _ => 0) (fun _ => 0) (fun _ => 0) (fun _ => 0)
          (fun _ => 0) (fun _ => 0)
        = some [(p1, 0), (p2, 1), (p3, 1), (p4, 0)] := by
  obtain ⟨nn0, h0, hz0⟩ := mainPipeline_zero (α := ℝ)
  obtain ⟨nn', ls, hfit, ⟨beta, hbeta⟩⟩ :=
    main_fit Real.exp Real.log (fun nn => ∃ beta, ZeroTrained nn beta) nn0 ⟨0, hz0⟩
      (fun nn xy hP hxy => by
        obtain ⟨beta, hb⟩ := hP
        obtain ⟨hx, y0, hy⟩ := xor_sample_shape xy hxy
        obtain ⟨x, y⟩ := xy
        simp only at hx hy
        subst hy
        obtain ⟨nn1, nn', beta', hf, -, hs, hb'⟩ :=
          xor_step_zero Real.exp (1 / 100) nn beta x y0 [] hb hx
        exact ⟨nn1, [sigmoid Real.exp beta], _, nn', hf,
          BCELoss_eq Real.log [y0] [sigmoid Real.exp beta] (le_refl _), hs, ⟨beta', hb'⟩⟩)
  obtain ⟨p1, p2, p3, p4, hpreds, h1, h2, h3, h4⟩ :=
    main_test_blocks Real.exp (fun nn => ZeroTrained nn beta)
      (fun p => p = sigmoid Real.exp beta) nn' hbeta
      (fun nn x hP hx => by
        obtain ⟨nn1, -, -, hf, hb1, -, -⟩ :=
          xor_step_zero Real.exp (1 / 100) nn beta x 0 [] hP (xor_input_shape x hx)
        exact ⟨nn1, _, hf, hb1, rfl⟩)
  have hmain := main_unfold Real.exp Real.log _ _ _ _ _ _ nn0 nn' ls h0 hfit
  rw [hpreds, h1, h2, h3, h4] at hmain
  refine ⟨⟨_, hmain⟩, ?_⟩
  rintro ⟨q1, q2, q3, q4, hq⟩
  rw [hmain] at hq
  simp only [Option.some.injEq, List.cons.injEq, Prod.mk.injEq, and_true] at hq
  obtain ⟨⟨-, ht0⟩, ⟨-, ht1⟩, -⟩ := hq
  rw [ht0] at ht1
  exact zero_ne_one ht1

/-! ## Sigmoid together with the loss -/

/-! ### The range of `sigmoid`, exactly and in binary64 arithmetic -/

theorem floor_le_roundHalfEven (q : ℚ) : ⌊q⌋ ≤ roundHalfEven q := by
  unfold roundHalfEven
  split_ifs <;> omega

theorem roundHalfEven_le_floor_add_one (q : ℚ) : roundHalfEven q ≤ ⌊q⌋ + 1 := by
  unfold roundHalfEven
  split_ifs <;> omega

theorem roundHalfEven_intCast (n : ℤ) : roundHalfEven (n : ℚ) = n := by
  unfold roundHalfEven
  simp

theorem le_roundHalfEven (n : ℤ) (q : ℚ) (h : (n : ℚ) ≤ q) : n ≤ roundHalfEven q :=
  le_trans (Int.le_floor.mpr h) (floor_le_roundHalfEven q)

theorem roundHalfEven_le (n : ℤ) (q : ℚ) (h : q ≤ (n : ℚ)) : roundHalfEven q ≤ n := by
  rcases eq_or_lt_of_le h with h | h
  · rw [h, roundHalfEven_intCast]
  · have := Int.floor_lt.mpr h
    have := roundHalfEven_le_floor_add_one q
    omega

/-- A value in `[n, n + 1/2]` with `n` even rounds to `n`. -/
theorem roundHalfEven_of_even (n : ℤ) (q : ℚ) (hn : n % 2 = 0) (h0 : (n : ℚ) ≤ q)
    (h1 : q ≤ n + 1 / 2) : roundHalfEven q = n := by
  have hf : ⌊q⌋ = n := by
    rw [Int.floor_eq_iff]
    constructor
    · exact h0
    · linarith
  unfold roundHalfEven
  rw [hf]
  by_cases h : q - n < 1 / 2
  · rw [if_pos h]
  · rw [if_neg h, if_neg (by linarith), if_pos hn]

theorem roundDouble_one_add (t : ℚ) (h0 : 0 ≤ t) (h1 : t ≤ 1 / 2 ^ 53) :
    roundDouble (1 + t) = 1 := by
  have ht : t < 1 := lt_of_le_of_lt h1 (by norm_num)
  have habs : |1 + t| = 1 + t := abs_of_nonneg (by linarith)
  have hlog : Int.log 2 (1 + t) = 0 := by
    rw [Int.log_of_one_le_right 2 (by linarith)]
    have : ⌊1 + t⌋₊ = 1 := by
      rw [Nat.floor_eq_iff (by linarith)]
      constructor
      · norm_num; exact h0
      · norm_num; linarith
    rw [this]
    simp
  unfold roundDouble
  simp only [habs, hlog]
  have he : max (0 : ℤ) (-1022) = 0 := by decide
  rw [he]
  have hs : (2 : ℚ) ^ ((0 : ℤ) - 52) = 1 / 4503599627370496 := by norm_num
  have h1' : t ≤ 1 / 9007199254740992 := by
    have : (2 : ℚ) ^ 53 = 9007199254740992 := by norm_num
    rwa [this] at h1
  have hq : (1 + t) / (1 / 4503599627370496) = 4503599627370496 + t * 4503599627370496 := by
    field_simp
    ring
  have hr : roundHalfEven ((1 + t) / 2 ^ ((0 : ℤ) - 52)) = 4503599627370496 := by
    rw [hs, hq]
    apply roundHalfEven_of_even
    · decide
    · push_cast
      linarith
    · push_cast
      linarith
  rw [hr, hs]
  norm_num


theorem two_pow_52_mul (e : ℤ) : (4503599627370496 : ℚ) * 2 ^ (e - 52) = 2 ^ e := by
  have h : (4503599627370496 : ℚ) = 2 ^ (52 : ℤ) := by norm_num
  rw [h, ← zpow_add₀ (by norm_num)]
  congr 1
  ring

theorem two_pow_53_mul (e : ℤ) : (9007199254740992 : ℚ) * 2 ^ (e - 52) = 2 ^ (e + 1) := by
  have h : (9007199254740992 : ℚ) = 2 ^ (53 : ℤ) := by norm_num
  rw [h, ← zpow_add₀ (by norm_num)]
  congr 1
  ring

theorem roundDouble_nonneg (q : ℚ) (h : 0 ≤ q) : 0 ≤ roundDouble q := by
  unfold roundDouble
  dsimp only
  have hs : (0 : ℚ) < 2 ^ (max (Int.log 2 |q|) (-1022) - 52) := by positivity
  have hq : ((0 : ℤ) : ℚ) ≤ q / 2 ^ (max (Int.log 2 |q|) (-1022) - 52) := by
    rw [Int.cast_zero]
    exact div_nonneg h (le_of_lt hs)
  have hr := le_roundHalfEven 0 _ hq
  have hr' : (0 : ℚ) ≤ (roundHalfEven (q / 2 ^ (max (Int.log 2 |q|) (-1022) - 52)) : ℚ) := by
    exact_mod_cast hr
  exact mul_nonneg hr' (le_of_lt hs)

theorem one_le_roundDouble (q : ℚ) (h : 1 ≤ q) : 1 ≤ roundDouble q := by
  have hq0 : 0 < q := by linarith
  have habs : |q| = q := abs_of_pos hq0
  have hL0 : 0 ≤ Int.log 2 q := by
    rw [← Int.zpow_le_iff_le_log (by norm_num) hq0]
    simpa using h
  have hL : (2 : ℚ) ^ Int.log 2 q ≤ q := by
    have := Int.zpow_log_le_self (b := 2) (r := q) (by norm_num) hq0
    simpa using this
  unfold roundDouble
  dsimp only
  rw [habs, max_eq_left (by omega)]
  have hs : (0 : ℚ) < 2 ^ (Int.log 2 q - 52) := by positivity
  have hq : ((4503599627370496 : ℤ) : ℚ) ≤ q / 2 ^ (Int.log 2 q - 52) := by
    rw [le_div_iff₀ hs]
    push_cast
    rw [two_pow_52_mul]
    exact hL
  have hr := le_roundHalfEven _ _ hq
  have hr' : (4503599627370496 : ℚ) ≤ (roundHalfEven (q / 2 ^ (Int.log 2 q - 52)) : ℚ) := by
    exact_mod_cast hr
  calc (1 : ℚ) ≤ 2 ^ Int.log 2 q := one_le_zpow₀ (by norm_num) hL0
    _ = 4503599627370496 * 2 ^ (Int.log 2 q - 52) := (two_pow_52_mul _).symm
    _ ≤ _ := mul_le_mul_of_nonneg_right hr' (le_of_lt hs)

theorem roundDouble_le_one (q : ℚ) (h0 : 0 ≤ q) (h1 : q ≤ 1) : roundDouble q ≤ 1 := by
  rcases eq_or_lt_of_le h1 with h1 | h1
  · rw [h1]
    have := roundDouble_one_add 0 (le_refl _) (by positivity)
    rw [add_zero] at this
    rw [this]
  rcases eq_or_lt_of_le h0 with h0 | h0
  · rw [← h0]
    simp [roundDouble, roundHalfEven]
  have habs : |q| = q := abs_of_pos h0
  have hL0 : Int.log 2 q < 0 := by
    rw [← Int.lt_zpow_iff_log_lt (by norm_num) h0]
    simpa using h1
  have hL : q < (2 : ℚ) ^ (Int.log 2 q + 1) := by
    have := Int.lt_zpow_succ_log_self (b := 2) (by norm_num) q
    simpa using this
  unfold roundDouble
  dsimp only
  rw [habs]
  generalize he : max (Int.log 2 q) (-1022) = e
  have he1 : Int.log 2 q ≤ e := by rw [← he]; exact le_max_left _ _
  have he2 : e ≤ -1 := by rw [← he]; exact max_le (by omega) (by norm_num)
  have hs : (0 : ℚ) < 2 ^ (e - 52) := by positivity
  have hq : q / 2 ^ (e - 52) ≤ ((9007199254740992 : ℤ) : ℚ) := by
    rw [div_le_iff₀ hs]
    push_cast
    rw [two_pow_53_mul]
    have : (2 : ℚ) ^ (Int.log 2 q + 1) ≤ 2 ^ (e + 1) :=
      zpow_le_zpow_right₀ (by norm_num) (by omega)
    linarith
  have hr := roundHalfEven_le _ _ hq
  have hr' : (roundHalfEven (q / 2 ^ (e - 52)) : ℚ) ≤ 9007199254740992 := by
    exact_mod_cast hr
  calc (roundHalfEven (q / 2 ^ (e - 52)) : ℚ) * 2 ^ (e - 52)
      ≤ 9007199254740992 * 2 ^ (e - 52) := mul_le_mul_of_nonneg_right hr' (le_of_lt hs)
    _ = 2 ^ (e + 1) := two_pow_53_mul _
    _ ≤ 1 := zpow_le_one_of_nonpos₀ (by norm_num) (by omega)

theorem sigmoidDouble_eq_one (exp : ℚ → ℚ) (x : ℚ) (h0 : 0 ≤ exp (-x))
    (h1 : exp (-x) ≤ 1 / 2 ^ 53) : sigmoidDouble exp x = 1 := by
  unfold sigmoidDouble
  rw [roundDouble_one_add _ h0 h1, div_one]
  have := roundDouble_one_add 0 (le_refl _) (by positivity)
  rwa [add_zero] at this

theorem sigmoidDouble_mem_Icc (exp : ℚ → ℚ) (x : ℚ) (h0 : 0 ≤ exp (-x)) :
    0 ≤ sigmoidDouble exp x ∧ sigmoidDouble exp x ≤ 1 := by
  unfold sigmoidDouble
  have hu := one_le_roundDouble (1 + exp (-x)) (by linarith)
  have hu0 : 0 < roundDouble (1 + exp (-x)) := by linarith
  have h1 : 1 / roundDouble (1 + exp (-x)) ≤ 1 := by
    rw [div_le_one hu0]
    exact hu
  have h2 : 0 ≤ 1 / roundDouble (1 + exp (-x)) := by positivity
  exact ⟨roundDouble_nonneg _ h2, roundDouble_le_one _ h2 h1⟩

theorem exp_neg_37_lt : Real.exp (-37) < 1 / 2 ^ 53 := by
  have h1 : (2.7182818283 : ℝ) < Real.exp 1 := Real.exp_one_gt_d9
  have h2 : (2 : ℝ) ^ 53 < Real.exp 37 := by
    have : Real.exp 37 = Real.exp 1 ^ 37 := by
      rw [← Real.exp_nat_mul]
      norm_num
    rw [this]
    calc (2 : ℝ) ^ 53 < (2.7182818283 : ℝ) ^ 37 := by norm_num
      _ < Real.exp 1 ^ 37 := pow_lt_pow_left₀ h1 (by norm_num) (by norm_num)
  rw [Real.exp_neg, inv_eq_one_div]
  exact one_div_lt_one_div_of_lt (by positivity) h2


theorem expNeg37_pos_lt : 0 < expNeg37 ∧ expNeg37 < 1 / 2 ^ 53 := by
  unfold expNeg37
  constructor <;> norm_num

theorem roundDouble_expNeg37 : roundDouble expNeg37 = expNeg37 := by
  have hpos : 0 < expNeg37 := expNeg37_pos_lt.1
  have habs : |expNeg37| = expNeg37 := abs_of_pos hpos
  have hlog : Int.log 2 expNeg37 = -54 := by
    apply le_antisymm
    · have : Int.log 2 expNeg37 < -53 := by
        rw [← Int.lt_zpow_iff_log_lt (by norm_num) hpos]
        unfold expNeg37
        norm_num
      omega
    · rw [← Int.zpow_le_iff_le_log (by norm_num) hpos]
      unfold expNeg37
      norm_num
  unfold roundDouble
  dsimp only
  rw [habs, hlog]
  have he : max (-54 : ℤ) (-1022) = -54 := by decide
  rw [he]
  have hq : expNeg37 / 2 ^ ((-54 : ℤ) - 52) = ((6922830684512341 : ℤ) : ℚ) := by
    unfold expNeg37
    norm_num
  rw [hq, roundHalfEven_intCast]
  unfold expNeg37
  norm_num

theorem forwardDouble_output (exp : ℚ → ℚ) (s : Sigmoid ℚ) (xs : List ℚ) :
    (s.forwardDouble exp xs).2 = xs.map (sigmoidDouble exp) :=
  rfl

/-- C21, counterexample. The number `e^(-37)` is positive and below `2^(-53)`,
and so is the double nearest to it, `expNeg37`, which `exp(-37.0)` returns. In
binary64 arithmetic the sum `1.0 + exp(-37.0)` rounds to `1.0`, so
`sigmoid(37.0)` is exactly `1.0` and the output of a `Sigmoid` layer's
`forward` on `[37.0]` is `[1.0]`: an entry `p` that is not strictly inside
`(0, 1)`, for which `1 - p` and the divisor `p * (1 - p)` of
`BCELossDerivative` are zero. -/
theorem sigmoid_double_reaches_one :
    (0 < Real.exp (-37) ∧ Real.exp (-37) < 1 / 2 ^ 53) ∧
    (0 < expNeg37 ∧ expNeg37 < 1 / 2 ^ 53 ∧ roundDouble expNeg37 = expNeg37) ∧
    roundDouble (1 + expNeg37) = 1 ∧
    sigmoidDouble (fun _ => expNeg37) 37 = 1 ∧
    ∃ p : ℚ, (Sigmoid.forwardDouble (fun _ => expNeg37) ({} : Sigmoid ℚ) [37]).2 = [p] ∧
      ¬ p < 1 ∧ 1 - p = 0 ∧ p * (1 - p) = 0 := by
  have h0 : (0 : ℚ) ≤ expNeg37 := le_of_lt expNeg37_pos_lt.1
  have h1 : expNeg37 ≤ 1 / 2 ^ 53 := le_of_lt expNeg37_pos_lt.2
  have hs : sigmoidDouble (fun _ => expNeg37) 37 = 1 :=
    sigmoidDouble_eq_one (fun _ => expNeg37) 37 h0 h1
  refine ⟨⟨Real.exp_pos _, exp_neg_37_lt⟩,
    ⟨expNeg37_pos_lt.1, expNeg37_pos_lt.2, roundDouble_expNeg37⟩,
    roundDouble_one_add expNeg37 h0 h1, hs, 1, ?_, by norm_num, by norm_num, by norm_num⟩
  rw [forwardDouble_output, List.map_cons, List.map_nil, hs]

/-- C21, amended. For every real `x`, `1 / (1 + e^(-x))` lies strictly between
0 and 1; hence in exact real arithmetic every entry `p` of the output of a
`Sigmoid` layer's `forward` lies strictly inside `(0, 1)`, where `ln p` and
`ln (1 - p)` are logarithms of positive numbers and the divisor `p * (1 - p)`
of `BCELossDerivative` is not zero. In binary64 arithmetic, whenever `exp(-x)`
is finite and not negative, every entry lies in the closed interval `[0, 1]`,
and the entry is exactly `1.0` wherever `exp(-x) ≤ 2^(-53)`. -/
theorem sigmoid_range_exact_and_double :
    (∀ x : ℝ, sigmoid Real.exp x = 1 / (1 + Real.exp (-x)) ∧
      0 < sigmoid Real.exp x ∧ sigmoid Real.exp x < 1) ∧
    (∀ (s : Sigmoid ℝ) (xs : List ℝ) (p : ℝ), p ∈ (s.forward Real.exp xs).2 →
      (0 < p ∧ p < 1) ∧ 0 < 1 - p ∧ p * (1 - p) ≠ 0) ∧
    (∀ (exp : ℚ → ℚ) (s : Sigmoid ℚ) (xs : List ℚ), (∀ x ∈ xs, 0 ≤ exp (-x)) →
      ∀ p ∈ (s.forwardDouble exp xs).2, 0 ≤ p ∧ p ≤ 1) ∧
    (∀ (exp : ℚ → ℚ) (s : Sigmoid ℚ) (xs : List ℚ),
      (∀ x ∈ xs, 0 ≤ exp (-x) ∧ exp (-x) ≤ 1 / 2 ^ 53) →
      ∀ p ∈ (s.forwardDouble exp xs).2, p = 1) := by
  refine ⟨fun x => ⟨rfl, sigmoid_pos_lt_one x⟩, ?_, ?_, ?_⟩
  · intro s xs p hp
    have hp' : p ∈ xs.map (sigmoid Real.exp) := hp
    obtain ⟨v, -, rfl⟩ := List.mem_map.mp hp'
    have h := sigmoid_pos_lt_one v
    have h1 : 0 < 1 - sigmoid Real.exp v := by linarith [h.2]
    exact ⟨h, h1, ne_of_gt (mul_pos h.1 h1)⟩
  · intro exp s xs hxs p hp
    rw [forwardDouble_output] at hp
    obtain ⟨v, hv, rfl⟩ := List.mem_map.mp hp
    exact sigmoidDouble_mem_Icc exp v (hxs v hv)
  · intro exp s xs hxs p hp
    rw [forwardDouble_output] at hp
    obtain ⟨v, hv, rfl⟩ := List.mem_map.mp hp
    exact sigmoidDouble_eq_one exp v (hxs v hv).1 (hxs v hv).2

/-- C22, counterexample. At `x = 0` the body of `reluDerivative`
(`x >= 0 ? 1 : 0`) returns 1, not the 0 of `1 if x > 0, and 0 otherwise`, and
the body of `leakyReluDerivative` (`x >= 0 ? 1 : alpha`) returns 1, not the
`alpha` of `1 if x > 0, and alpha otherwise`, here with `alpha = 0.01`. -/
theorem reluDerivative_zero_is_one :
    reluDerivative (0 : ℝ) = 1 ∧
    reluDerivative (0 : ℝ) ≠ (if (0 : ℝ) > 0 then 1 else 0) ∧
    leakyReluDerivative (0 : ℝ) (1 / 100) = 1 ∧
    leakyReluDerivative (0 : ℝ) (1 / 100) ≠ (if (0 : ℝ) > 0 then 1 else 1 / 100) := by
  refine ⟨by simp [reluDerivative], by simp [reluDerivative],
    by simp [leakyReluDerivative], ?_⟩
  simp only [leakyReluDerivative, ge_iff_le, le_refl, if_true, gt_iff_lt, lt_irrefl, if_false]
  norm_num

/-- C22, amended. For every real `x ≠ 0`, `reluDerivative(x)` is 1 if `x > 0`,
and 0 otherwise, and `leakyReluDerivative(x, alpha)` is 1 if `x > 0`, and
`alpha` otherwise; at `x = 0` both return 1, since the code tests `x >= 0`. -/
theorem reluDerivative_documented_off_zero (x alpha : ℝ) (hx : x ≠ 0) :
    reluDerivative x = (if x > 0 then 1 else 0) ∧
    leakyReluDerivative x alpha = (if x > 0 then 1 else alpha) ∧
    reluDerivative (0 : ℝ) = 1 ∧ leakyReluDerivative (0 : ℝ) alpha = 1 := by
  refine ⟨?_, ?_, by simp [reluDerivative], by simp [leakyReluDerivative]⟩
  · rcases lt_or_gt_of_ne hx with h | h
    · simp [reluDerivative, not_le.mpr h, not_lt.mpr (le_of_lt h)]
    · have h' : 0 < x := h
      simp [reluDerivative, le_of_lt h', h']
  · rcases lt_or_gt_of_ne hx with h | h
    · simp [leakyReluDerivative, not_le.mpr h, not_lt.mpr (le_of_lt h)]
    · have h' : 0 < x := h
      simp [leakyReluDerivative, le_of_lt h', h']

/-- The theorem `reluDerivative_documented_off_zero` at `x = -2` and
`alpha = 1/100`: there `reluDerivative` returns 0 and `leakyReluDerivative`
returns `1/100`. -/
theorem reluDerivative_documented_off_zero_witness :
    (-2 : ℝ) ≠ 0 ∧ reluDerivative (-2 : ℝ) = 0 ∧
      leakyReluDerivative (-2 : ℝ) (1 / 100) = 1 / 100 := by
  have h := reluDerivative_documented_off_zero (-2) (1 / 100) (by norm_num)
  refine ⟨by norm_num, ?_, ?_⟩
  · rw [h.1]
    norm_num
  · rw [h.2.1]
    norm_num

theorem BCELoss_single (y q : ℝ) :
    BCELoss Real.log [y] [q] = some (-(y * Real.log q + (1 - y) * Real.log (1 - q))) := by
  rw [BCELoss_eq Real.log [y] [q] (le_refl _)]
  simp [Finset.sum_range_one]

theorem BCELoss_single_hasDerivAt (y p : ℝ) (hp0 : 0 < p) (hp1 : p < 1) :
    HasDerivAt (fun q : ℝ => -(y * Real.log q + (1 - y) * Real.log (1 - q)))
      ((p - y) / (p * (1 - p))) p := by
  have hp : p ≠ 0 := ne_of_gt hp0
  have h1p : 1 - p ≠ 0 := ne_of_gt (by linarith)
  have h1 : HasDerivAt (fun q : ℝ => Real.log q) p⁻¹ p := Real.hasDerivAt_log hp
  have h2 : HasDerivAt (fun q : ℝ => 1 - q) (-1) p := by
    simpa using (hasDerivAt_id p).const_sub (1 : ℝ)
  have h3 : HasDerivAt (fun q : ℝ => Real.log (1 - q)) ((1 - p)⁻¹ * (-1)) p :=
    (Real.hasDerivAt_log h1p).comp p h2
  have h4 := ((h1.const_mul y).add (h3.const_mul (1 - y))).neg
  have heq : (p - y) / (p * (1 - p)) = -(y * p⁻¹ + (1 - y) * ((1 - p)⁻¹ * (-1))) := by
    field_simp
    ring
  rw [heq]
  exact h4

/-- C23. `BCELossDerivative` is the derivative of `BCELoss` for single-output
networks: for every real label `y` and every real `p` with `0 < p < 1`, the
single entry `(p - y) / (p * (1 - p))` of `BCELossDerivative([y], [p])` is the
derivative at `p` of the function `q ↦ BCELoss([y], [q])`. -/
theorem BCELossDerivative_is_derivative (y p : ℝ) (hp0 : 0 < p) (hp1 : p < 1) :
    BCELossDerivative [y] [p] = some [(p - y) / (p * (1 - p))] ∧
    ∃ f : ℝ → ℝ, (∀ q, BCELoss Real.log [y] [q] = some (f q)) ∧
      HasDerivAt f ((p - y) / (p * (1 - p))) p :=
  ⟨by simp [BCELossDerivative],
    fun q => -(y * Real.log q + (1 - y) * Real.log (1 - q)), BCELoss_single y,
    BCELoss_single_hasDerivAt y p hp0 hp1⟩

/-- The theorem `BCELossDerivative_is_derivative` at `y = 1` and `p = 1/4`. -/
theorem BCELossDerivative_is_derivative_witness :
    (0 : ℝ) < 1 / 4 ∧ (1 / 4 : ℝ) < 1 ∧
      BCELossDerivative [(1 : ℝ)] [1 / 4] = some [(1 / 4 - 1) / (1 / 4 * (1 - 1 / 4))] :=
  ⟨by norm_num, by norm_num,
    (BCELossDerivative_is_derivative 1 (1 / 4) (by norm_num) (by norm_num)).1⟩

/-- C25. `transpose` is an involution on proper matrices: for every matrix `m`
with `r ≥ 1` rows, all of the same length `c ≥ 1`, `transpose(m)` returns a
matrix on which `transpose` returns `m`. -/
theorem transpose_involution [Zero α] (m : List (List α)) (r c : Nat) (h : IsMatrix m r c)
    (hr : 1 ≤ r) (hc : 1 ≤ c) :
    ∃ t, transpose m = some t ∧ transpose t = some m := by
  refine ⟨_, transpose_eq m r c h hr, ?_⟩
  rw [transpose_eq _ c r (table_isMatrix _ _ _) hc]
  congr 1
  rw [h.eq_table]
  apply table_congr
  intro i j hi hj
  rw [entry_table _ _ _ _ _ hj hi, entry_table _ _ _ _ _ hi hj]

/-- The theorem `transpose_involution` at the `2 × 3` matrix
`[[1, 2, 3], [4, 5, 6]]`. -/
theorem transpose_involution_witness :
    IsMatrix ([[1, 2, 3], [4, 5, 6]] : List (List ℚ)) 2 3 ∧
      ∃ t, transpose ([[1, 2, 3], [4, 5, 6]] : List (List ℚ)) = some t ∧
        transpose t = some [[1, 2, 3], [4, 5, 6]] :=
  ⟨by decide, transpose_involution [[1, 2, 3], [4, 5, 6]] 2 3 (by decide) (by decide)
    (by decide)⟩

end NeuralNetwork
